import Mathlib

/-!
Verification development for the SeedingGrowfox repository (a Django
marketing-analytics dashboard).  The Python sources under src/PageInfo are
shallowly embedded below: pure helper functions become Lean functions, the
database rows written by the request handlers become Lean structures, and the
per-request computations become functions from their inputs (scraper results,
request parameters) to the rows and chart payloads they produce.  Exceptions
raised by Python code are modeled by Option, none standing for a raised
exception escaping the modeled fragment.

Conventions used throughout:
* Python str values are Lean String; character-level work happens on List Char.
* Python None and absent dict keys are Option.none; Python falsiness of a
  string is emptiness-or-none.
* Machine integers are unbounded in Python, so Nat and Int are used directly;
  float arithmetic appearing in the sources is modeled with exact rationals,
  with any deviation of that model from IEEE doubles noted at the definition.
-/

namespace SG

/-! ## Python string primitives -/

/-- ASCII decimal digit test, the fragment of Python str.isdigit exercised by
the sources (Unicode digit classes are outside the modeled fragment). -/
def isAsciiDigit (c : Char) : Bool :=
  decide (48 ≤ c.toNat) && decide (c.toNat ≤ 57)

/-- ASCII letter test (Python isascii plus isalpha). -/
def isAsciiAlpha (c : Char) : Bool :=
  (decide (65 ≤ c.toNat) && decide (c.toNat ≤ 90))
    || (decide (97 ≤ c.toNat) && decide (c.toNat ≤ 122))

/-- Python str.isdigit on ASCII text: nonempty and all characters digits. -/
def pyIsDigit (s : String) : Bool := !s.isEmpty && s.data.all isAsciiDigit

/-- Numeric value of a nonempty ASCII digit run. -/
def digitsToNat : List Char → Nat → Nat
  | [], acc => acc
  | c :: cs, acc => digitsToNat cs (acc * 10 + (c.toNat - 48))

/-- Parse a nonempty all-digit character list. -/
def parseDigits (l : List Char) : Option Nat :=
  if l.isEmpty then none
  else if l.all isAsciiDigit then some (digitsToNat l 0) else none

/-- Python int(str) on the fragment used by the sources: an optional sign
followed by a nonempty ASCII digit run.  Underscore separators, surrounding
whitespace and non-ASCII digits are outside the modeled fragment; none models
a raised ValueError. -/
def pyInt (s : String) : Option Int :=
  match s.data with
  | '-' :: rest => (parseDigits rest).map (fun n => -(n : Int))
  | '+' :: rest => (parseDigits rest).map (fun n => (n : Int))
  | l => (parseDigits l).map (fun n => (n : Int))

/-- Python whitespace characters recognized by str.split() and str.strip()
(the ASCII fragment). -/
def isPySpace (c : Char) : Bool :=
  c = ' ' || c = '\t' || c = '\n' || c = '\r' || c = '\x0b' || c = '\x0c'

/-- Helper for splitWs: accumulates the current word (reversed). -/
def splitWsAux : List Char → List Char → List String
  | [], acc => if acc.isEmpty then [] else [String.mk acc.reverse]
  | c :: cs, acc =>
    if isPySpace c then
      if acc.isEmpty then splitWsAux cs []
      else String.mk acc.reverse :: splitWsAux cs []
    else splitWsAux cs (c :: acc)

/-- Python str.split() with no argument: split on whitespace runs, dropping
empty pieces. -/
def splitWs (s : String) : List String := splitWsAux s.data []

/-- ASCII lowercase conversion of one character, the fragment of Python
str.lower used by the sources. -/
def lowerChar (c : Char) : Char :=
  if h : c.toNat ≥ 65 ∧ c.toNat ≤ 90 then
    Char.ofNatAux (c.toNat + 32) (Or.inl (by omega))
  else c

/-- ASCII fragment of Python str.lower. -/
def pyLower (s : String) : String := String.mk (s.data.map lowerChar)

/-- Python truthiness of an optional string: None and the empty string are
falsy. -/
def pyTruthyStr : Option String → Bool
  | none => false
  | some s => !s.isEmpty

/-- Python a or b for optional strings: keep a when truthy, else use b. -/
def pyOrStr (a b : Option String) : Option String :=
  if pyTruthyStr a then a else b

end SG

namespace SG.FBReel

/-! ## fb_reel.py: FBReelScraperAsync helpers -/

/-- JSON attribute value as far as _process_cookie inspects it: a string or
some non-string value (number, bool, object, ...). -/
inductive PyVal where
  | str (s : String)
  | nonstr
deriving DecidableEq

/-- Cookie object from the cookie JSON file.  Only the sameSite attribute is
touched by _process_cookie; the remaining attributes are opaque here.  An
Option.none sameSite models both an absent key and JSON null, matching
cookie.get("sameSite") returning None in either case. -/
structure Cookie where
  sameSite : Option PyVal
  otherAttrs : String
deriving DecidableEq

/-- Transformation applied to one cookie dict by _process_cookie
(fb_reel.py:52-62): None or a case-insensitive "no_restriction" becomes
"None", case-insensitive "lax"/"strict" become "Lax"/"Strict", and any other
value (including unrecognized strings and non-strings) is left unchanged
because the if/elif chain has no final else. -/
def processSameSite : Option PyVal → Option PyVal
  | none => some (.str "None")
  | some (.str s) =>
    if pyLower s = "no_restriction" then some (.str "None")
    else if pyLower s = "lax" then some (.str "Lax")
    else if pyLower s = "strict" then some (.str "Strict")
    else some (.str s)
  | some .nonstr => some .nonstr

/-- FBReelScraperAsync._process_cookie (fb_reel.py:52-62): maps the sameSite
coercion over the loaded cookie list, leaving other attributes alone. -/
def process_cookie (cs : List Cookie) : List Cookie :=
  cs.map fun c => { c with sameSite := processSameSite c.sameSite }

/-- Thai month-name table of _parse_thai_timestamp (fb_reel.py:79-83);
thai_months.get(name, 0) yields 0 for an unknown name. -/
def thaiMonth (s : String) : Int :=
  if s = "มกราคม" then 1
  else if s = "กุมภาพันธ์" then 2
  else if s = "มีนาคม" then 3
  else if s = "เมษายน" then 4
  else if s = "พฤษภาคม" then 5
  else if s = "มิถุนายน" then 6
  else if s = "กรกฎาคม" then 7
  else if s = "สิงหาคม" then 8
  else if s = "กันยายน" then 9
  else if s = "ตุลาคม" then 10
  else if s = "พฤศจิกายน" then 11
  else if s = "ธันวาคม" then 12
  else 0

/-- Value produced by a successful datetime.datetime construction. -/
structure PyDatetime where
  year : Int
  month : Int
  day : Int
  hour : Int
  minute : Int
deriving DecidableEq

/-- Gregorian leap-year rule used by datetime. -/
def isLeapYear (y : Int) : Bool :=
  y % 4 = 0 && (y % 100 ≠ 0 || y % 400 = 0)

/-- Length of a month for datetime validation. -/
def daysInMonth (y m : Int) : Int :=
  if m = 2 then (if isLeapYear y then 29 else 28)
  else if m = 4 ∨ m = 6 ∨ m = 9 ∨ m = 11 then 30
  else 31

/-- Python datetime.datetime(y, m, d, hh, mm): validates its arguments and
raises ValueError (modeled as none) outside the legal ranges, in particular
for month 0 produced by a failed thai_months lookup. -/
def datetime (y m d hh mm : Int) : Option PyDatetime :=
  if 1 ≤ y ∧ y ≤ 9999 ∧ 1 ≤ m ∧ m ≤ 12 ∧ 1 ≤ d ∧ d ≤ daysInMonth y m
      ∧ 0 ≤ hh ∧ hh < 24 ∧ 0 ≤ mm ∧ mm < 60 then
    some ⟨y, m, d, hh, mm⟩
  else none

/-- Unix epoch start returned by the except-branch of _parse_thai_timestamp. -/
def epochStart : PyDatetime := ⟨1970, 1, 1, 0, 0⟩

/-- Helper splitting a character list at every colon (Python str.split(":")),
written with structural recursion so that kernel evaluation works. -/
def splitColonAux : List Char → List Char → List String
  | [], acc => [String.mk acc.reverse]
  | c :: cs, acc =>
    if c = ':' then String.mk acc.reverse :: splitColonAux cs []
    else splitColonAux cs (c :: acc)

/-- Python time_part.split(":") unpacked into exactly two names; any other
shape raises (none). -/
def timeSplit (s : String) : Option (String × String) :=
  match splitColonAux s.data [] with
  | [a, b] => some (a, b)
  | _ => none

/-- Body of the try-block of _parse_thai_timestamp (fb_reel.py:91-109): every
exception path (index errors, int failures, bad time shape, invalid datetime
fields) yields none, which the caller turns into the epoch start. -/
def tryBranch (nowYear : Int) (parts : List String) : Option PyDatetime := do
  let (day, month, year, timePart) ←
    if 5 ≤ parts.length && pyIsDigit (parts.getD 3 "") then do
      let d ← pyInt (parts.getD 1 "")
      let y ← pyInt (parts.getD 3 "")
      let tp ← parts.get? 5
      pure (d, thaiMonth (parts.getD 2 ""), y, tp)
    else do
      let p1 ← parts.get? 1
      let d ← pyInt p1
      let p2 ← parts.get? 2
      let tp ← parts.get? 4
      pure (d, thaiMonth p2, nowYear, tp)
  let (hs, ms) ← timeSplit timePart
  let h ← pyInt hs
  let mi ← pyInt ms
  datetime year month day h mi

/-- FBReelScraperAsync._parse_thai_timestamp (fb_reel.py:78-111).  nowYear
stands for datetime.now().year.  The two-token branch (bare "DD month") runs
BEFORE the try/except, so a failure inside it (unknown month name giving
month 0, or an out-of-range day) raises out of the function: that is the
none result.  All failures inside the try-block collapse to the epoch
start. -/
def parse_thai_timestamp (nowYear : Int) (text : String) : Option PyDatetime :=
  let parts := splitWs text
  if parts.length = 2 && pyIsDigit (parts.getD 0 "") then
    match pyInt (parts.getD 0 "") with
    | some d => datetime nowYear (thaiMonth (parts.getD 1 "")) d 0 0
    | none => none
  else
    some ((tryBranch nowYear parts).getD epochStart)

end SG.FBReel

namespace SG.FBReel

/-! ## Claim C3: sameSite coercion -/

/-- Claim C3 counterexample: _process_cookie leaves an unrecognized sameSite
string untouched, because its if/elif chain has no final else branch.  A
cookie whose sameSite is "unspecified" keeps that value, which is none of
"None", "Lax", "Strict" — refuting the claim that every unrecognized value
maps to "None". -/
theorem c3_counterexample :
    process_cookie [⟨some (.str "unspecified"), "a"⟩]
        = [⟨some (.str "unspecified"), "a"⟩]
    ∧ (some (PyVal.str "unspecified") ≠ some (PyVal.str "None")
       ∧ some (PyVal.str "unspecified") ≠ some (PyVal.str "Lax")
       ∧ some (PyVal.str "unspecified") ≠ some (PyVal.str "Strict")) := by
  exact ⟨by decide, by decide, by decide, by decide⟩

/-- Claim C3 as amended: _process_cookie maps each cookie pointwise; an
absent sameSite or a case-insensitive "no_restriction" becomes "None",
case-insensitive "lax"/"strict" become "Lax"/"Strict", and every other value
is left unchanged (not coerced to "None"). -/
theorem c3_process_cookie_amended (cs : List Cookie) (c : Cookie) (hc : c ∈ cs) :
    ({ c with sameSite := processSameSite c.sameSite } ∈ process_cookie cs)
    ∧ processSameSite none = some (.str "None")
    ∧ (∀ s, pyLower s = "no_restriction" →
        processSameSite (some (.str s)) = some (.str "None"))
    ∧ (∀ s, pyLower s = "lax" → processSameSite (some (.str s)) = some (.str "Lax"))
    ∧ (∀ s, pyLower s = "strict" →
        processSameSite (some (.str s)) = some (.str "Strict"))
    ∧ (∀ s, pyLower s ≠ "no_restriction" → pyLower s ≠ "lax" → pyLower s ≠ "strict" →
        processSameSite (some (.str s)) = some (.str s))
    ∧ processSameSite (some .nonstr) = some .nonstr := by
  refine ⟨List.mem_map_of_mem _ hc, rfl, ?_, ?_, ?_, ?_, rfl⟩
  · intro s h; simp [processSameSite, h]
  · intro s h; simp [processSameSite, h]
  · intro s h; simp [processSameSite, h]
  · intro s h1 h2 h3; simp [processSameSite, h1, h2, h3]

/-- Witness for c3_process_cookie_amended at a concrete cookie list. -/
theorem c3_process_cookie_amended_witness :
    ({ sameSite := processSameSite (some (PyVal.str "WeIrD")), otherAttrs := "k" } : Cookie)
      ∈ process_cookie [⟨some (PyVal.str "WeIrD"), "k"⟩] :=
  (c3_process_cookie_amended [⟨some (PyVal.str "WeIrD"), "k"⟩]
    ⟨some (PyVal.str "WeIrD"), "k"⟩ (by simp)).1

/-! ## Claim C2: Thai date-time parsing -/

/-- Claim C2 counterexample: _parse_thai_timestamp is NOT total.  The
two-token branch runs before the try/except, so "23 abc" (two tokens, first
all digits, second not a recognized Thai month) computes month 0 and the
datetime constructor raises ValueError out of the function (modeled none) —
instead of returning the epoch start as the claim requires for malformed
input. -/
theorem c2_counterexample :
    parse_thai_timestamp 2025 "23 abc" = none := by decide

/-- Claim C2 as amended: the documented date shapes parse as claimed
("23 กุมภาพันธ์" to day 23, month 2 of the current year at 00:00; the full
"วันที่ 5 มกราคม 2024 เวลา 14:30 น." shape to 2024-01-05 14:30; the year-free
shape to the current year), and every input NOT matching the guarded
two-token digit shape is total, with malformed ones collapsing to the epoch
start; but a two-token "DD word" input whose month is unrecognized or whose
day is out of range raises instead of producing the epoch. -/
theorem c2_parse_thai_timestamp_amended :
    (∀ y : Int, 1 ≤ y → y ≤ 9999 →
      parse_thai_timestamp y "23 กุมภาพันธ์" = some ⟨y, 2, 23, 0, 0⟩)
    ∧ (∀ y : Int,
      parse_thai_timestamp y "วันที่ 5 มกราคม 2024 เวลา 14:30 น." = some ⟨2024, 1, 5, 14, 30⟩)
    ∧ (∀ y : Int, 1 ≤ y → y ≤ 9999 →
      parse_thai_timestamp y "วันที่ 5 มกราคม เวลา 14:30 น." = some ⟨y, 1, 5, 14, 30⟩)
    ∧ (∀ (y : Int) (text : String),
      (decide ((splitWs text).length = 2) && pyIsDigit ((splitWs text).getD 0 "")) = false →
      (parse_thai_timestamp y text).isSome)
    ∧ (∀ y : Int, parse_thai_timestamp y "ข้อความที่ไม่ใช่วันที่" = some epochStart) := by
  refine ⟨?_, ?_, ?_, ?_, ?_⟩
  · intro y h1 h2
    have ht : parse_thai_timestamp y "23 กุมภาพันธ์" = datetime y 2 23 0 0 := rfl
    have hd : (23 : Int) ≤ daysInMonth y 2 := by
      simp only [daysInMonth]
      norm_num
      split <;> norm_num
    rw [ht, datetime, if_pos]
    exact ⟨h1, h2, by norm_num, by norm_num, by norm_num, hd, by norm_num,
      by norm_num, by norm_num, by norm_num⟩
  · intro y
    have ht : parse_thai_timestamp y "วันที่ 5 มกราคม 2024 เวลา 14:30 น."
        = some ((datetime 2024 1 5 14 30).getD epochStart) := rfl
    rw [ht]
    rfl
  · intro y h1 h2
    have ht : parse_thai_timestamp y "วันที่ 5 มกราคม เวลา 14:30 น."
        = some ((datetime y 1 5 14 30).getD epochStart) := rfl
    have hdt : datetime y 1 5 14 30 = some ⟨y, 1, 5, 14, 30⟩ := by
      rw [datetime, if_pos]
      refine ⟨h1, h2, by norm_num, by norm_num, by norm_num, ?_, by norm_num,
        by norm_num, by norm_num, by norm_num⟩
      simp only [daysInMonth]
      norm_num
    rw [ht, hdt]
    rfl
  · intro y text hb
    simp only [parse_thai_timestamp, hb, Bool.false_eq_true, if_false]
    exact rfl
  · intro y
    exact rfl

end SG.FBReel

namespace SG.FBReel

/-- Witness for c2_parse_thai_timestamp_amended at concrete inputs. -/
theorem c2_parse_thai_timestamp_amended_witness :
    parse_thai_timestamp 2025 "23 กุมภาพันธ์" = some ⟨2025, 2, 23, 0, 0⟩
    ∧ (parse_thai_timestamp 2025 "nothing here").isSome :=
  ⟨c2_parse_thai_timestamp_amended.1 2025 (by norm_num) (by norm_num),
   c2_parse_thai_timestamp_amended.2.2.2.1 2025 "nothing here" (by decide)⟩

end SG.FBReel

namespace SG.Views

open SG

/-! ## views.py: the activity pipeline and the comment dashboard -/

/-- Comment dict returned by the comment scrapers (fb_comment.py and
fb_comment_info.py): every field is read with .get, so each may be absent. -/
structure ScrapedComment where
  author : Option String
  profile_img_url : Option String
  content : Option String
  reaction : Option String
  timestamp_text : Option String
  image_url : Option String
  reply : Option String
deriving DecidableEq

/-- FacebookComment database row as written by views.py.  Fields the create
calls leave unset (like_status/share_status in the seeding branch, sentiment
and its companions everywhere) are Option-valued with none as the unset
default. -/
structure FacebookComment where
  post_url : String
  dashboard : Nat
  author : Option String
  profile_img_url : Option String
  content : Option String
  reaction : Option String
  timestamp_text : Option String
  image_url : Option String
  reply : Option String
  like_status : Option String
  share_status : Option String
  sentiment : Option String
  reason : Option String
  keyword_group : Option String
  category : Option String
deriving DecidableEq

/-- Blank row used as the base of the create calls: every optional column at
its unset default. -/
def blankComment : FacebookComment :=
  ⟨"", 0, none, none, none, none, none, none, none, none, none, none, none, none, none⟩

/-- run_activity_pipeline (views.py:41-77): after running the comment, like
and share scrapers, persists one FacebookComment per scraped comment whose
author is truthy (non-None and nonempty), with like_status "liked"/"not_liked"
by membership of the author in the like-name set and share_status
"shared"/"not_shared" by membership in the share-name set. -/
def run_activity_pipeline (post_url : String) (dashboard : Nat)
    (comments : List ScrapedComment) (likes shares : List String) :
    List FacebookComment :=
  comments.filterMap fun c =>
    match c.author with
    | none => none
    | some a =>
      if a.isEmpty then none
      else some { blankComment with
        post_url := post_url
        dashboard := dashboard
        author := some a
        profile_img_url := c.profile_img_url
        content := c.content
        reaction := c.reaction
        timestamp_text := c.timestamp_text
        image_url := c.image_url
        reply := c.reply
        like_status := some (if a ∈ likes then "liked" else "not_liked")
        share_status := some (if a ∈ shares then "shared" else "not_shared") }

/-- Activity split of comment_dashboard_view (views.py:218-226): the liked
bucket compares like_status against the Thai literal. -/
def liked_comments (l : List FacebookComment) : List FacebookComment :=
  l.filter fun c => c.like_status == some "ถูกใจแล้ว"

/-- Complement bucket of the activity split (views.py:220). -/
def unliked_comments (l : List FacebookComment) : List FacebookComment :=
  l.filter fun c => !(c.like_status == some "ถูกใจแล้ว")

end SG.Views

namespace SG.Views

/-! ## Claims C9 and C1: the activity pipeline and the dashboard liked split -/

/-- Claim C9: run_activity_pipeline persists a row for exactly the scraped
comments with a truthy author (non-None, nonempty), and each persisted row
carries like_status "liked" iff its author is in the like-name list (else
"not_liked") and share_status "shared" iff its author is in the share-name
list (else "not_shared"). -/
theorem c9_run_activity_pipeline_spec (pu : String) (d : Nat)
    (comments : List ScrapedComment) (likes shares : List String) :
    ((run_activity_pipeline pu d comments likes shares).map (fun r => r.author)
        = (comments.filter fun c => pyTruthyStr c.author).map (fun c => c.author))
    ∧ (run_activity_pipeline pu d comments likes shares).length
        = (comments.filter fun c => pyTruthyStr c.author).length
    ∧ ∀ r ∈ run_activity_pipeline pu d comments likes shares,
        ∃ a : String, r.author = some a ∧ a.isEmpty = false
          ∧ (r.like_status = some "liked" ↔ a ∈ likes)
          ∧ (r.like_status = some "not_liked" ↔ a ∉ likes)
          ∧ (r.share_status = some "shared" ↔ a ∈ shares)
          ∧ (r.share_status = some "not_shared" ↔ a ∉ shares) := by
  have hmap : ∀ cs : List ScrapedComment,
      ((run_activity_pipeline pu d cs likes shares).map (fun r => r.author)
        = (cs.filter fun c => pyTruthyStr c.author).map (fun c => c.author)) := by
    intro cs
    induction cs with
    | nil => rfl
    | cons c cs ih =>
      rcases hc : c.author with _ | a
      · simpa [run_activity_pipeline, List.filterMap_cons, List.filter_cons, hc,
          pyTruthyStr] using ih
      · by_cases ha : a.isEmpty
        · simpa [run_activity_pipeline, List.filterMap_cons, List.filter_cons, hc,
            pyTruthyStr, ha] using ih
        · simpa [run_activity_pipeline, List.filterMap_cons, List.filter_cons, hc,
            pyTruthyStr, ha] using ih
  refine ⟨hmap comments, ?_, ?_⟩
  · have := congrArg List.length (hmap comments)
    simpa using this
  · intro r hr
    rw [run_activity_pipeline, List.mem_filterMap] at hr
    obtain ⟨c, _, hfc⟩ := hr
    rcases hca : c.author with _ | a
    · rw [hca] at hfc; exact absurd hfc (by simp)
    · rw [hca] at hfc
      dsimp only at hfc
      by_cases ha : a.isEmpty
      · rw [if_pos ha] at hfc; exact absurd hfc (by simp)
      · rw [if_neg ha] at hfc
        injection hfc with h
        subst h
        refine ⟨a, rfl, by simpa using ha, ?_, ?_, ?_, ?_⟩
        · by_cases hl : a ∈ likes <;> simp [hl]
        · by_cases hl : a ∈ likes <;> simp [hl]
        · by_cases hs : a ∈ shares <;> simp [hs]
        · by_cases hs : a ∈ shares <;> simp [hs]

/-- Witness for c9_run_activity_pipeline_spec at a concrete pipeline run. -/
theorem c9_run_activity_pipeline_spec_witness :
    ∃ a : String,
      (⟨"u", 1, some "Ann", none, none, none, none, none, none, some "liked",
        some "not_shared", none, none, none, none⟩ : FacebookComment).author = some a
      ∧ a.isEmpty = false
      ∧ ((⟨"u", 1, some "Ann", none, none, none, none, none, none, some "liked",
          some "not_shared", none, none, none, none⟩ : FacebookComment).like_status
            = some "liked" ↔ a ∈ ["Ann"])
      ∧ ((⟨"u", 1, some "Ann", none, none, none, none, none, none, some "liked",
          some "not_shared", none, none, none, none⟩ : FacebookComment).like_status
            = some "not_liked" ↔ a ∉ ["Ann"])
      ∧ ((⟨"u", 1, some "Ann", none, none, none, none, none, none, some "liked",
          some "not_shared", none, none, none, none⟩ : FacebookComment).share_status
            = some "shared" ↔ a ∈ ([] : List String))
      ∧ ((⟨"u", 1, some "Ann", none, none, none, none, none, none, some "liked",
          some "not_shared", none, none, none, none⟩ : FacebookComment).share_status
            = some "not_shared" ↔ a ∉ ([] : List String)) := by
  have h := (c9_run_activity_pipeline_spec "u" 1
    [⟨some "Ann", none, none, none, none, none, none⟩] ["Ann"] []).2.2
  exact h _ (by decide)

/-- Claim C1: every row created by run_activity_pipeline has like_status
"liked" or "not_liked", and the activity split of comment_dashboard_view
matches like_status against the Thai literal "ถูกใจแล้ว"; consequently on any
comment list whose rows all came from run_activity_pipeline the liked bucket
is empty and the unliked bucket is the whole list. -/
theorem c1_liked_split_mismatch :
    (∀ (pu : String) (d : Nat) (cs : List ScrapedComment) (ls ss : List String),
      ∀ r ∈ run_activity_pipeline pu d cs ls ss,
        r.like_status = some "liked" ∨ r.like_status = some "not_liked")
    ∧ (∀ L : List FacebookComment,
        (∀ r ∈ L, r.like_status = some "liked" ∨ r.like_status = some "not_liked") →
        liked_comments L = [] ∧ unliked_comments L = L) := by
  constructor
  · intro pu d cs ls ss r hr
    rw [run_activity_pipeline, List.mem_filterMap] at hr
    obtain ⟨c, _, hfc⟩ := hr
    rcases hca : c.author with _ | a
    · rw [hca] at hfc; exact absurd hfc (by simp)
    · rw [hca] at hfc
      dsimp only at hfc
      by_cases ha : a.isEmpty
      · rw [if_pos ha] at hfc; exact absurd hfc (by simp)
      · rw [if_neg ha] at hfc
        injection hfc with h
        rw [← h]
        by_cases hl : a ∈ ls <;> simp [hl]
  · intro L hL
    constructor
    · rw [liked_comments, List.filter_eq_nil_iff]
      intro r hr
      rcases hL r hr with h | h <;> simp [h]
    · rw [unliked_comments, List.filter_eq_self]
      intro r hr
      rcases hL r hr with h | h <;> simp [h]

/-- Witness for c1_liked_split_mismatch: on a concrete pipeline output the
liked bucket is empty and the unliked bucket is everything. -/
theorem c1_liked_split_mismatch_witness :
    liked_comments (run_activity_pipeline "u" 1
        [⟨some "Ann", none, none, none, none, none, none⟩] ["Ann"] []) = []
    ∧ unliked_comments (run_activity_pipeline "u" 1
        [⟨some "Ann", none, none, none, none, none, none⟩] ["Ann"] [])
      = run_activity_pipeline "u" 1
        [⟨some "Ann", none, none, none, none, none, none⟩] ["Ann"] [] :=
  c1_liked_split_mismatch.2 _
    (fun r hr => c1_liked_split_mismatch.1 "u" 1 _ ["Ann"] [] r hr)

end SG.Views

namespace SG

/-! ## More Python string/number primitives used by clean_number -/

/-- Python str.strip() with no argument on the ASCII-whitespace fragment. -/
def stripWs (l : List Char) : List Char :=
  ((l.dropWhile isPySpace).reverse.dropWhile isPySpace).reverse

/-- Fuel-bounded worker for replaceAll, structurally recursive on the fuel so
that kernel evaluation works; fuel at least the list length makes the zero
case unreachable. -/
def replaceAllF (pat rep : List Char) : Nat → List Char → List Char
  | 0, l => l
  | _ + 1, [] => []
  | f + 1, c :: cs =>
    if pat ≠ [] ∧ pat.isPrefixOf (c :: cs) then
      rep ++ replaceAllF pat rep f (cs.drop (pat.length - 1))
    else c :: replaceAllF pat rep f cs

/-- Python str.replace(pat, rep): replaces every non-overlapping occurrence,
scanning left to right. -/
def replaceAll (pat rep l : List Char) : List Char := replaceAllF pat rep l.length l

/-- Generic single-character splitter (Python str.split(sep) for a
one-character separator). -/
def splitCharsAux (p : Char → Bool) : List Char → List Char → List (List Char)
  | [], acc => [acc.reverse]
  | c :: cs, acc =>
    if p c then acc.reverse :: splitCharsAux p cs []
    else splitCharsAux p cs (c :: acc)

/-- Unsigned decimal mantissa of Python float() — digits, digits-dot,
digits-dot-digits or dot-digits — as an exact scaled integer (num, scale)
whose value is num times 10 to the scale. -/
def parseUnsignedDec (l : List Char) : Option (ℤ × ℤ) :=
  match splitCharsAux (fun c => c = '.') l [] with
  | [a] =>
    if a ≠ [] ∧ a.all isAsciiDigit then some ((digitsToNat a 0 : ℤ), 0) else none
  | [a, b] =>
    if (a ≠ [] ∨ b ≠ []) ∧ a.all isAsciiDigit ∧ b.all isAsciiDigit then
      some ((digitsToNat a 0 : ℤ) * 10 ^ b.length + (digitsToNat b 0 : ℤ),
        -(b.length : ℤ))
    else none
  | _ => none

/-- Optional leading sign in front of a float mantissa. -/
def parseSignedDec (l : List Char) : Option (ℤ × ℤ) :=
  match l with
  | '-' :: rest => (parseUnsignedDec rest).map (fun p => (-p.1, p.2))
  | '+' :: rest => parseUnsignedDec rest
  | _ => parseUnsignedDec l

/-- Signed integer exponent of a float literal. -/
def parseExpPart (l : List Char) : Option ℤ :=
  match l with
  | '-' :: rest => (parseDigits rest).map (fun n => -(n : ℤ))
  | '+' :: rest => (parseDigits rest).map (fun n => (n : ℤ))
  | _ => (parseDigits l).map (fun n => (n : ℤ))

/-- Python float(str) on the decimal-literal fragment: optional surrounding
whitespace, optional sign, decimal mantissa, optional exponent.  The result
is the exact scaled integer (num, scale) with value num times 10 to the
scale.  Underscore separators, inf and nan are outside the modeled fragment.
The IEEE double produced by CPython is this exact value rounded to 53 bits;
the theorems below evaluate it only where the two agree. -/
def pyFloat (s : String) : Option (ℤ × ℤ) :=
  let l := stripWs s.data
  match splitCharsAux (fun c => c = 'e' || c = 'E') l [] with
  | [m] => parseSignedDec m
  | [m, e] => do
    let p ← parseSignedDec m
    let ex ← parseExpPart e
    pure (p.1, p.2 + ex)
  | _ => none

/-- Python int() of a scaled decimal times 10^k: exact integer when the net
scale is nonnegative, otherwise truncation toward zero (Int.tdiv is
t-division, matching CPython int()). -/
def truncScaled (p : ℤ × ℤ) (k : ℤ) : ℤ :=
  let sc := p.2 + k
  if 0 ≤ sc then p.1 * 10 ^ sc.toNat
  else Int.tdiv p.1 (10 ^ (-sc).toNat)

end SG

namespace SG.Views

open SG

/-! ## Claim C4: clean_number (views.py:348-364) -/

/-- Intermediate cleaned string of clean_number (views.py:350): lowercase,
remove all commas, remove the literal suffix texts " videos", " views" and
" subscribers" in that order, then strip whitespace. -/
def cleanedValue (s : String) : List Char :=
  stripWs
    (replaceAll " subscribers".data []
      (replaceAll " views".data []
        (replaceAll " videos".data []
          ((pyLower s).data.filter (fun c => c ≠ ',')))))

/-- clean_number (views.py:348-364) on a string input.  The k/m/b branches
run int(float(value-without-that-letter) * multiplier) with no exception
handling, so a float failure there propagates (none); only the final plain
int(value) is guarded by try/except returning 0.  The isinstance branches
for int/float/other inputs are outside this string-input embedding. -/
def clean_number (s : String) : Option ℤ :=
  let v := cleanedValue s
  if v.contains 'k' then
    (pyFloat (String.mk (v.filter (fun c => c ≠ 'k')))).map (fun p => truncScaled p 3)
  else if v.contains 'm' then
    (pyFloat (String.mk (v.filter (fun c => c ≠ 'm')))).map (fun p => truncScaled p 6)
  else if v.contains 'b' then
    (pyFloat (String.mk (v.filter (fun c => c ≠ 'b')))).map (fun p => truncScaled p 9)
  else
    match pyInt (String.mk v) with
    | some n => some n
    | none => some 0

/-- Claim C4 counterexample: clean_number can raise.  On input "k" the
cleaned value contains the letter k, so the code calls float("") which
raises ValueError (none) — instead of returning 0 as the claim requires for
every unrecognized string. -/
theorem c4_counterexample : clean_number "k" = none := by decide

/-- Claim C4 as amended: the multiplier and suffix behavior is as claimed on
well-formed inputs ("1.5K videos" to 1500, "2M subscribers" to 2000000,
"3.2B views" to 3200000000, plain digits to themselves, and a multiplier-free
unparseable string to 0), and the function never raises on strings whose
cleaned form has no k/m/b letter; but when the cleaned form contains a
k/m/b letter and the remaining text is not a parseable float, the code
raises ValueError instead of returning 0 (only the plain-int branch is
guarded by try/except). -/
theorem c4_clean_number_amended :
    clean_number "1.5K videos" = some 1500
    ∧ clean_number "2M subscribers" = some 2000000
    ∧ clean_number "3.2B views" = some 3200000000
    ∧ clean_number "8457" = some 8457
    ∧ clean_number "oops" = some 0
    ∧ (∀ s : String, (cleanedValue s).contains 'k' = false →
        (cleanedValue s).contains 'm' = false →
        (cleanedValue s).contains 'b' = false → (clean_number s).isSome)
    ∧ (∀ s : String, clean_number s = none →
        ((cleanedValue s).contains 'k' = true ∨ (cleanedValue s).contains 'm' = true
          ∨ (cleanedValue s).contains 'b' = true)) := by
  have key : ∀ s : String, (cleanedValue s).contains 'k' = false →
      (cleanedValue s).contains 'm' = false →
      (cleanedValue s).contains 'b' = false → (clean_number s).isSome := by
    intro s hk hm hb
    simp only [clean_number, hk, hm, hb, Bool.false_eq_true, if_false]
    match pyInt (String.mk (cleanedValue s)) with
    | some n => rfl
    | none => rfl
  refine ⟨by decide, by decide, by decide, by decide, by decide, key, ?_⟩
  intro s hnone
  by_contra hall
  push_neg at hall
  obtain ⟨hk, hm, hb⟩ := hall
  have := key s (by simpa using hk) (by simpa using hm) (by simpa using hb)
  rw [hnone] at this
  exact absurd this (by simp)

/-- Witness for c4_clean_number_amended: a multiplier-free string never
raises. -/
theorem c4_clean_number_amended_witness : (clean_number "12,345 people").isSome :=
  c4_clean_number_amended.2.2.2.2.2.1 "12,345 people" (by decide) (by decide) (by decide)

end SG.Views

namespace SG

/-! ## Stable descending sort, modeling Python sorted(reverse=True) and SQL
ORDER BY count DESC, written structurally so that kernel evaluation works -/

/-- Insert one element into a descending-sorted list, before the first
element whose key is not larger; earlier elements with equal keys stay in
front, matching the stability of Python sorted. -/
def insertDesc {α : Type} (key : α → ℤ) (x : α) : List α → List α
  | [] => [x]
  | y :: ys => if key x < key y then y :: insertDesc key x ys else x :: y :: ys

/-- Stable descending insertion sort by an integer key. -/
def sortDesc {α : Type} (key : α → ℤ) : List α → List α
  | [] => []
  | x :: xs => insertDesc key x (sortDesc key xs)

theorem mem_insertDesc {α : Type} (key : α → ℤ) (x : α) (l : List α) (a : α) :
    a ∈ insertDesc key x l ↔ a = x ∨ a ∈ l := by
  induction l with
  | nil => simp [insertDesc]
  | cons y ys ih =>
    by_cases h : key x < key y
    · simp only [insertDesc, if_pos h, List.mem_cons, ih]
      tauto
    · simp only [insertDesc, if_neg h, List.mem_cons]

theorem mem_sortDesc {α : Type} (key : α → ℤ) (l : List α) (a : α) :
    a ∈ sortDesc key l ↔ a ∈ l := by
  induction l with
  | nil => simp [sortDesc]
  | cons x xs ih =>
    simp only [sortDesc, mem_insertDesc, List.mem_cons, ih]

theorem perm_sortDesc {α : Type} (key : α → ℤ) (l : List α) :
    (sortDesc key l).Perm l := by
  induction l with
  | nil => exact List.Perm.refl []
  | cons x xs ih =>
    have hp : ∀ m : List α, (insertDesc key x m).Perm (x :: m) := by
      intro m
      induction m with
      | nil => exact List.Perm.refl [x]
      | cons y ys ihm =>
        by_cases h : key x < key y
        · simp only [insertDesc, if_pos h]
          exact (List.Perm.cons y ihm).trans (List.Perm.swap x y ys)
        · simp only [insertDesc, if_neg h]
          exact List.Perm.refl _
    exact ((hp (sortDesc key xs)).trans (List.Perm.cons x ih))

theorem sorted_insertDesc {α : Type} (key : α → ℤ) (x : α) (l : List α)
    (hl : l.Pairwise (fun a b => key b ≤ key a)) :
    (insertDesc key x l).Pairwise (fun a b => key b ≤ key a) := by
  induction l with
  | nil => simp [insertDesc]
  | cons y ys ih =>
    rcases List.pairwise_cons.mp hl with ⟨hy, hys⟩
    by_cases h : key x < key y
    · simp only [insertDesc, if_pos h]
      refine List.pairwise_cons.mpr ⟨?_, ih hys⟩
      intro b hb
      rcases (mem_insertDesc key x ys b).mp hb with rfl | hb
      · omega
      · exact hy b hb
    · simp only [insertDesc, if_neg h]
      refine List.pairwise_cons.mpr ⟨?_, hl⟩
      intro b hb
      rcases List.mem_cons.mp hb with rfl | hb
      · omega
      · have := hy b hb
        omega

theorem sorted_sortDesc {α : Type} (key : α → ℤ) (l : List α) :
    (sortDesc key l).Pairwise (fun a b => key b ≤ key a) := by
  induction l with
  | nil => simp [sortDesc]
  | cons x xs ih => exact sorted_insertDesc key x (sortDesc key xs) ih

end SG

namespace SG.Views

open SG

/-! ## Claim C5: category / keyword-group tables of comment_dashboard_view -/

/-- Distinct grouping keys of the values+annotate query of
comment_dashboard_view (views.py:164,169): one key per distinct stored value,
the NULL group included.  Row order inside the table is settled by
order_by("-count") below; dedup order is irrelevant to the claims. -/
def distinctVals (f : FacebookComment → Option String) (l : List FacebookComment) :
    List (Option String) :=
  (l.map f).dedup

/-- SQL Count("category") of one GROUP BY bucket: COUNT(column) counts only
non-NULL column values, so the NULL group reports 0 while a non-NULL group
reports its row count. -/
def sqlGroupCount (f : FacebookComment → Option String) (l : List FacebookComment)
    (v : Option String) : Nat :=
  if v = none then 0 else (l.filter (fun c => f c == v)).length

/-- Frequency-table rows of comment_dashboard_view (views.py:164-171): one
(value, count) row per distinct value, ordered by descending count. -/
def freqTable (f : FacebookComment → Option String) (l : List FacebookComment) :
    List (Option String × Nat) :=
  sortDesc (fun e => (e.2 : ℤ))
    ((distinctVals f l).map (fun v => (v, sqlGroupCount f l v)))

/-- Label shown for one table row (views.py:165,170): the stored value when
truthy, else the literal "ไม่ระบุ". -/
def labelOf (v : Option String) : String :=
  match v with
  | none => "ไม่ระบุ"
  | some s => if s.isEmpty then "ไม่ระบุ" else s

/-- Chart labels of the frequency table (views.py:165,170). -/
def tableLabels (f : FacebookComment → Option String) (l : List FacebookComment) :
    List String :=
  (freqTable f l).map (fun e => labelOf e.1)

/-- Per-label comment listing (views.py:174-187): for each label the view
refilters the comments with category=label, comparing the STORED value
against the LABEL text. -/
def labelListing (f : FacebookComment → Option String) (l : List FacebookComment)
    (lbl : String) : List FacebookComment :=
  l.filter (fun c => f c == some lbl)

/-- Claim C5 counterexample: a dashboard whose one comment has the empty
string as category produces the label "ไม่ระบุ" in the frequency table, but
the per-label listing for "ไม่ระบุ" is empty — the empty-valued comment is
NOT in it, because the listing filters on category equal to the literal
label text. -/
theorem c5_counterexample :
    tableLabels (fun c => c.category) [{ blankComment with category := some "" }]
      = ["ไม่ระบุ"]
    ∧ labelListing (fun c => c.category) [{ blankComment with category := some "" }]
        "ไม่ระบุ" = []
    ∧ ({ blankComment with category := some "" } : FacebookComment)
        ∉ labelListing (fun c => c.category)
          [{ blankComment with category := some "" }] "ไม่ระบุ" := by
  refine ⟨by decide, by decide, by decide⟩

/-- Claim C5 as amended: for either projection (category or keyword_group),
an empty-string value yields a table row labeled "ไม่ระบุ" counted by its
number of comments, and a NULL value yields a row labeled "ไม่ระบุ" with
count 0 (SQL COUNT skips NULLs); the per-label listing pairs each label with
the comments whose stored value literally equals the label text, so
empty-valued and NULL-valued comments never appear in the "ไม่ระบุ"
listing. -/
theorem c5_unspecified_bucketing (f : FacebookComment → Option String)
    (l : List FacebookComment) :
    (∀ c ∈ l, f c = some "" →
      ("ไม่ระบุ" ∈ tableLabels f l
        ∧ (some "", (l.filter (fun x => f x == some "")).length) ∈ freqTable f l))
    ∧ (∀ c ∈ l, f c = none →
      ("ไม่ระบุ" ∈ tableLabels f l ∧ (none, 0) ∈ freqTable f l))
    ∧ (∀ lbl, labelListing f l lbl = l.filter (fun c => f c == some lbl))
    ∧ (∀ c ∈ l, f c = none ∨ f c = some "" → c ∉ labelListing f l "ไม่ระบุ") := by
  have hmem : ∀ v : Option String, (∃ c ∈ l, f c = v) →
      (v, sqlGroupCount f l v) ∈ freqTable f l := by
    intro v ⟨c, hc, hv⟩
    rw [freqTable, mem_sortDesc]
    exact List.mem_map_of_mem _ (List.mem_dedup.mpr (hv ▸ List.mem_map_of_mem f hc))
  refine ⟨?_, ?_, fun _ => rfl, ?_⟩
  · intro c hc hv
    have h1 : (some "", sqlGroupCount f l (some "")) ∈ freqTable f l :=
      hmem (some "") ⟨c, hc, hv⟩
    have h2 : sqlGroupCount f l (some "") = (l.filter (fun x => f x == some "")).length := by
      rw [sqlGroupCount, if_neg (by simp)]
    refine ⟨?_, h2 ▸ h1⟩
    have := List.mem_map_of_mem (fun e => labelOf e.1) h1
    simpa [labelOf, tableLabels] using this
  · intro c hc hv
    have h1 : ((none : Option String), sqlGroupCount f l none) ∈ freqTable f l :=
      hmem none ⟨c, hc, hv⟩
    have h2 : sqlGroupCount f l none = 0 := by rw [sqlGroupCount, if_pos rfl]
    refine ⟨?_, h2 ▸ h1⟩
    have := List.mem_map_of_mem (fun e => labelOf e.1) h1
    simpa [labelOf, tableLabels] using this
  · intro c _ hv hmem2
    have := List.of_mem_filter hmem2
    rcases hv with hv | hv <;> rw [hv] at this <;> simp at this

/-- Witness for c5_unspecified_bucketing at a concrete comment list. -/
theorem c5_unspecified_bucketing_witness :
    "ไม่ระบุ" ∈ tableLabels (fun c => c.category)
        [{ blankComment with category := some "" }]
    ∧ (some "",
        (List.filter (fun x => x.category == some "")
          [{ blankComment with category := some "" }]).length)
      ∈ freqTable (fun c => c.category) [{ blankComment with category := some "" }] :=
  (c5_unspecified_bucketing (fun c => c.category)
      [{ blankComment with category := some "" }]).1
    { blankComment with category := some "" } (by simp) rfl

end SG.Views

namespace SG.Views

open SG
open SG.FBReel (PyDatetime)

/-! ## group_detail (views.py:644-837): engagement, top-10 and bubble chart -/

/-- Reactions column of a FacebookPost row as the view reads it: a JSON dict
of reaction-name to count, or any non-dict value, matching the
isinstance(p.reactions, dict) guards. -/
inductive Reactions where
  | dict (entries : List (String × ℤ))
  | nondict
deriving DecidableEq

/-- FacebookPost row restricted to the columns the group_detail computations
under claim read: timestamp, reactions, comment and share counts (display
columns such as content and images do not enter the claimed numbers). -/
structure FBPost where
  post_id : String
  post_timestamp_dt : Option PyDatetime
  reactions : Reactions
  comment_count : Option ℤ
  share_count : Option ℤ
deriving DecidableEq

/-- Howard Hinnant days-from-civil-date algorithm; the operands of every
division are arranged nonnegative so Int t-division acts as floor. -/
def daysFromCivil (y m d : ℤ) : ℤ :=
  let y2 := if m ≤ 2 then y - 1 else y
  let era := Int.tdiv (if 0 ≤ y2 then y2 else y2 - 399) 400
  let yoe := y2 - era * 400
  let mp := (m + 9) % 12
  let doy := Int.tdiv (153 * mp + 2) 5 + d - 1
  let doe := yoe * 365 + Int.tdiv yoe 4 - Int.tdiv yoe 100 + doy
  era * 146097 + doe - 719468

/-- Python datetime.weekday(): Monday is 0.  1970-01-01 (day 0 of
daysFromCivil) was a Thursday, weekday 3. -/
def pyWeekday (t : PyDatetime) : ℤ := (daysFromCivil t.year t.month t.day + 3) % 7

/-- Two-hour slot of group_detail (views.py:769): (hour // 2) * 2. -/
def hourSlot (t : PyDatetime) : ℤ := Int.tdiv t.hour 2 * 2

/-- Bucket key weekday_hourSlot of the best-time bubble chart
(views.py:770). -/
def bucketKey (t : PyDatetime) : ℤ × ℤ := (pyWeekday t, hourSlot t)

/-- Posts having a parsed timestamp, paired with it (the bubble loop skips
posts without post_timestamp_dt, views.py:763-764). -/
def postsWithTs (posts : List FBPost) : List (FBPost × PyDatetime) :=
  posts.filterMap (fun p => p.post_timestamp_dt.map (fun t => (p, t)))

/-- Distinct bucket keys of the bubble grouping (views.py:760-772).  The
defaultdict iterates keys in insertion order; key order is irrelevant to the
claims, so dedup order stands in for it. -/
def bubbleKeys (posts : List FBPost) : List (ℤ × ℤ) :=
  ((postsWithTs posts).map (fun pt => bucketKey pt.2)).dedup

/-- Posts of one bucket, in list order (views.py:772). -/
def bucketPosts (posts : List FBPost) (k : ℤ × ℤ) : List (FBPost × PyDatetime) :=
  (postsWithTs posts).filter (fun pt => bucketKey pt.2 == k)

/-- Like-reaction count of one post as the bubble sums read it
(views.py:778): reactions.get("ถูกใจ", 0) when reactions is a dict, else 0. -/
def likeReactions (p : FBPost) : ℤ :=
  match p.reactions with
  | .dict m => (m.lookup "ถูกใจ").getD 0
  | .nondict => 0

/-- Largest n at most 21 with n^10 at most c^11, i.e. min 21 (floor of
c^1.1) in exact real arithmetic.  int(count ** 1.1) in the source truncates
the IEEE double count ** 1.1; the double and the exact real power truncate
identically away from integer boundaries, and the 21 cap is absorbed by the
min-20 clamp of the radius. -/
def floorPow11 (c : ℕ) : ℕ :=
  ((List.range 22).filter (fun n => n ^ 10 ≤ c ^ 11)).length - 1

/-- Bubble radius of group_detail (views.py:785):
max(5, min(20, int(count ** 1.1))). -/
def bubbleR (c : ℕ) : ℕ := max 5 (min 20 (floorPow11 c))

/-- Radius formula as the claim words it — clamp(round(count ** 1.1), 5, 20)
— with round computed exactly: the largest n at most 21 with
(2n-1)^10 at most 2^10 * c^11, i.e. n at most c^1.1 + 1/2 (count ** 1.1 is
never exactly a half-integer, so the tie convention is irrelevant).  This
second definition follows the claim text, to be compared with bubbleR. -/
def specBubbleR (c : ℕ) : ℕ :=
  max 5 (min 20
    (((List.range 22).filter (fun n => (2 * n - 1) ^ 10 ≤ 2 ^ 10 * c ^ 11)).length - 1))

/-- One bubble of the best-time dataset (views.py:782-793); the tooltip and
key strings are presentation-only and omitted. -/
structure Bubble where
  x : ℤ
  y : ℤ
  r : ℤ
  count : ℕ
  likes : ℤ
  comments : ℤ
  shares : ℤ
deriving DecidableEq

/-- Best-time bubble dataset of group_detail (views.py:774-793). -/
def bubble_data (posts : List FBPost) : List Bubble :=
  (bubbleKeys posts).map (fun k =>
    let g := bucketPosts posts k
    { x := k.1
      y := k.2
      r := (bubbleR g.length : ℤ)
      count := g.length
      likes := (g.map (fun pt => likeReactions pt.1)).sum
      comments := (g.map (fun pt => pt.1.comment_count.getD 0)).sum
      shares := (g.map (fun pt => pt.1.share_count.getD 0)).sum })

end SG.Views

namespace SG.Views

open SG
open SG.FBReel (PyDatetime)

/-- Concrete post used by the bubble counterexample: Monday 2024-01-01 at
10:00, 2 like reactions, 1 comment, 1 share. -/
def samplePost : FBPost :=
  ⟨"p", some ⟨2024, 1, 1, 10, 0⟩, .dict [("ถูกใจ", 2)], some 1, some 1⟩

/-- Claim C6 counterexample: a bucket of 5 posts gets radius
max(5, min(20, int(5 ** 1.1))) = 5 from the code, while the claimed formula
clamp(round(5 ** 1.1), 5, 20) gives 6, because int() truncates where the
claim says round. -/
theorem c6_counterexample :
    (bubble_data (List.replicate 5 samplePost)).map (fun b => (b.count, b.r)) = [(5, 5)]
    ∧ specBubbleR 5 = 6
    ∧ ((5 : ℤ) ≠ (specBubbleR 5 : ℤ)) := by
  refine ⟨by decide, by decide, by decide⟩

/-- Claim C6 as amended: every bubble of the best-time dataset carries its
bucket size as count, radius max(5, min(20, trunc(count ** 1.1))) — the
clamp of the TRUNCATED power, not the rounded one — and the sums of the
bucket posts' like-reaction counts, comment counts and share counts. -/
theorem c6_bubble_amended (posts : List FBPost) :
    ∀ b ∈ bubble_data posts,
      b.count = (bucketPosts posts (b.x, b.y)).length
      ∧ b.r = (bubbleR b.count : ℤ)
      ∧ b.likes = ((bucketPosts posts (b.x, b.y)).map (fun pt => likeReactions pt.1)).sum
      ∧ b.comments = ((bucketPosts posts (b.x, b.y)).map
          (fun pt => pt.1.comment_count.getD 0)).sum
      ∧ b.shares = ((bucketPosts posts (b.x, b.y)).map
          (fun pt => pt.1.share_count.getD 0)).sum := by
  intro b hb
  rw [bubble_data, List.mem_map] at hb
  obtain ⟨k, _, hk⟩ := hb
  subst hk
  exact ⟨rfl, rfl, rfl, rfl, rfl⟩

/-- Witness for c6_bubble_amended at the single concrete bubble produced by
the one-post list [samplePost]. -/
theorem c6_bubble_amended_witness :
    (⟨0, 10, 5, 1, 2, 1, 1⟩ : Bubble) ∈ bubble_data [samplePost]
    ∧ ((1 : ℕ) = (bucketPosts [samplePost] (0, 10)).length
      ∧ (5 : ℤ) = (bubbleR 1 : ℤ)
      ∧ (2 : ℤ) = ((bucketPosts [samplePost] (0, 10)).map
          (fun pt => likeReactions pt.1)).sum
      ∧ (1 : ℤ) = ((bucketPosts [samplePost] (0, 10)).map
          (fun pt => pt.1.comment_count.getD 0)).sum
      ∧ (1 : ℤ) = ((bucketPosts [samplePost] (0, 10)).map
          (fun pt => pt.1.share_count.getD 0)).sum) :=
  ⟨by decide, c6_bubble_amended [samplePost] ⟨0, 10, 5, 1, 2, 1, 1⟩ (by decide)⟩

/-! ## Claim C7: total engagement, engagement rate, top-10 ranking -/

/-- Total engagement of one post (views.py:652-654 and 661-665): the sum of
all reaction values when reactions is a dict (else 0), plus comment count
and share count with None as 0. -/
def total_engagement (p : FBPost) : ℤ :=
  (match p.reactions with
   | .dict m => (m.map (fun e => e.2)).sum
   | .nondict => 0)
  + p.comment_count.getD 0 + p.share_count.getD 0

/-- Engagement rate of group_detail in tenths (views.py:668-669):
round(total/100, 1) is round-half-even of total/10 in tenths of a percent,
then min(rate, 10.0) caps at 100 tenths.  Python round operates on the IEEE
double total/100, which at the decimal ties total = 5 (mod 10) may fall on
either side of the tie in binary; no theorem below evaluates a tie. -/
def engagement_rate_tenths (t : ℤ) : ℤ :=
  let q := Int.fdiv t 10
  let r := t - 10 * q
  let rounded := if r < 5 then q else if 5 < r then q + 1
    else if q % 2 = 0 then q else q + 1
  min rounded 100

/-- Top-10 posts by engagement among posts with a known timestamp
(views.py:649-657): stable descending sort, first ten. -/
def top10_posts (posts : List FBPost) : List FBPost :=
  (sortDesc total_engagement (posts.filter (fun p => p.post_timestamp_dt.isSome))).take 10

/-- Claim C7: total engagement sums reactions plus comments plus shares
(reactions like 40 and love 10 with 5 comments and 5 shares give 60, rate
0.6); rate is round(total/100, 1) capped at 10.0 (total 1200 gives 10.0 not
12.0); and the top-10 list ranks by total engagement among the posts with a
known timestamp: its members are timestamped posts of the input, it is
sorted by descending engagement, has at most ten entries, and dominates
every timestamped post left out. -/
theorem c7_engagement_rate_top10 (posts : List FBPost) :
    total_engagement ⟨"p", some ⟨2024, 1, 1, 10, 0⟩,
        .dict [("like", 40), ("love", 10)], some 5, some 5⟩ = 60
    ∧ engagement_rate_tenths 60 = 6
    ∧ engagement_rate_tenths 1200 = 100
    ∧ (∀ t : ℤ, engagement_rate_tenths t ≤ 100)
    ∧ (∀ p ∈ top10_posts posts, p.post_timestamp_dt.isSome ∧ p ∈ posts)
    ∧ (top10_posts posts).Pairwise
        (fun a b => total_engagement b ≤ total_engagement a)
    ∧ (top10_posts posts).length ≤ 10
    ∧ (∀ p ∈ top10_posts posts, ∀ q ∈ posts, q.post_timestamp_dt.isSome →
        q ∉ top10_posts posts → total_engagement q ≤ total_engagement p) := by
  refine ⟨by decide, by decide, by decide, fun t => min_le_right _ _, ?_, ?_, ?_, ?_⟩
  · intro p hp
    have h1 : p ∈ sortDesc total_engagement
        (posts.filter (fun p => p.post_timestamp_dt.isSome)) :=
      List.mem_of_mem_take hp
    have h2 : p ∈ posts.filter (fun p => p.post_timestamp_dt.isSome) :=
      (mem_sortDesc _ _ _).mp h1
    have h3 := List.mem_filter.mp h2
    exact ⟨h3.2, h3.1⟩
  · exact (sorted_sortDesc total_engagement _).sublist (List.take_sublist _ _)
  · exact List.length_take_le _ _
  · intro p hp q hq hqts hqnot
    set L := sortDesc total_engagement
      (posts.filter (fun p => p.post_timestamp_dt.isSome)) with hL
    have hqL : q ∈ L := by
      rw [hL, mem_sortDesc]
      exact List.mem_filter.mpr ⟨hq, hqts⟩
    have hsplit : L = L.take 10 ++ L.drop 10 := (List.take_append_drop 10 L).symm
    have hpw : (L.take 10 ++ L.drop 10).Pairwise
        (fun a b => total_engagement b ≤ total_engagement a) := by
      rw [← hsplit]
      exact sorted_sortDesc total_engagement _
    have hqdrop : q ∈ L.drop 10 := by
      rcases List.mem_append.mp (hsplit ▸ hqL) with h | h
      · exact absurd h hqnot
      · exact h
    exact (List.pairwise_append.mp hpw).2.2 p hp q hqdrop

/-- Posts for the top-10 witness: engagements 0 through 10 via the comment
count, all timestamped. -/
def rankedPosts : List FBPost :=
  (List.range 11).map (fun i =>
    ⟨toString i, some ⟨2024, 1, 1, 10, 0⟩, .dict [], some (i : ℤ), some 0⟩)

/-- Witness for c7_engagement_rate_top10: on eleven concrete posts the
engagement-0 post is left out of the top ten and is dominated by the
engagement-10 member. -/
theorem c7_engagement_rate_top10_witness :
    total_engagement ⟨"0", some ⟨2024, 1, 1, 10, 0⟩, .dict [], some 0, some 0⟩
      ≤ total_engagement ⟨"10", some ⟨2024, 1, 1, 10, 0⟩, .dict [], some 10, some 0⟩ :=
  (c7_engagement_rate_top10 rankedPosts).2.2.2.2.2.2.2
    ⟨"10", some ⟨2024, 1, 1, 10, 0⟩, .dict [], some 10, some 0⟩ (by decide)
    ⟨"0", some ⟨2024, 1, 1, 10, 0⟩, .dict [], some 0, some 0⟩ (by decide)
    (by decide) (by decide)

end SG.Views

namespace SG.UrlPy

open SG

/-! ## urllib.parse (CPython 3.11) as used by normalize_url (views.py:114) -/

/-- WHATWG C0-control-or-space characters, lstripped from the URL head by
urlsplit. -/
def isC0OrSpace (c : Char) : Bool := decide (c.toNat ≤ 32)

/-- Unsafe URL bytes removed everywhere by urlsplit: tab, CR, LF. -/
def isUnsafeUrlChar (c : Char) : Bool := c = '\t' || c = '\r' || c = '\n'

/-- Characters legal inside a URL scheme. -/
def isSchemeChar (c : Char) : Bool :=
  isAsciiAlpha c || isAsciiDigit c || c = '+' || c = '-' || c = '.'

/-- Input normalization at the head of urlsplit: lstrip C0-or-space, then
drop every tab, CR and LF. -/
def cleanUrl (l : List Char) : List Char :=
  (l.dropWhile isC0OrSpace).filter (fun c => !isUnsafeUrlChar c)

/-- Split at the first character satisfying p: the part before it and,
when found, the part after it. -/
def splitFirst (p : Char → Bool) (l : List Char) : List Char × Option (List Char) :=
  match l.dropWhile (fun c => !p c) with
  | [] => (l.takeWhile (fun c => !p c), none)
  | _ :: rest => (l.takeWhile (fun c => !p c), some rest)

/-- Scheme detection of urlsplit: the text before the first colon must be
nonempty, start with an ASCII letter and consist of scheme characters; a
recognized scheme is stored lowercased and consumed together with the
colon, otherwise the input is returned whole. -/
def detectScheme (l : List Char) : List Char × List Char :=
  match splitFirst (fun c => c = ':') l with
  | (_, none) => ([], l)
  | (pre, some rest) =>
    match pre with
    | [] => ([], l)
    | c :: cs =>
      if isAsciiAlpha c && (c :: cs).all isSchemeChar then ((c :: cs).map lowerChar, rest)
      else ([], l)

/-- Netloc delimiters of _splitnetloc. -/
def isNetlocDelim (c : Char) : Bool := c = '/' || c = '?' || c = '#'

/-- Result record of urlsplit. -/
structure SplitRes where
  scheme : List Char
  netloc : List Char
  path : List Char
  query : List Char
  fragment : List Char
deriving DecidableEq

/-- urllib.parse.urlsplit of CPython 3.11, without the IPv6-bracket and
non-ASCII-netloc validation — those checks only raise, never alter a
returned result, and the theorems below quantify only over inputs on which
they pass (bracket-free ASCII). -/
def urlsplit (l0 : List Char) : SplitRes :=
  let l := cleanUrl l0
  let sr := detectScheme l
  let nr := if sr.2.take 2 = ['/', '/'] then
      ((sr.2.drop 2).takeWhile (fun c => !isNetlocDelim c),
       (sr.2.drop 2).dropWhile (fun c => !isNetlocDelim c))
    else ([], sr.2)
  let fr := splitFirst (fun c => c = '#') nr.2
  let qr := splitFirst (fun c => c = '?') fr.1
  ⟨sr.1, nr.1, qr.1, qr.2.getD [], fr.2.getD []⟩

/-- Schemes that use a network location, from urllib.parse.uses_netloc. -/
def uses_netloc : List (List Char) :=
  (["", "ftp", "http", "gopher", "nntp", "telnet", "imap", "wais", "file", "mms",
    "https", "shttp", "snews", "prospero", "rtsp", "rtsps", "rtspu", "rsync", "svn",
    "svn+ssh", "sftp", "nfs", "git", "git+ssh", "ws", "wss"].map String.data)

/-- Schemes that use path parameters, from urllib.parse.uses_params. -/
def uses_params : List (List Char) :=
  (["", "ftp", "hdl", "prospero", "http", "imap", "https", "shttp", "rtsp",
    "rtsps", "rtspu", "sip", "sips", "mms", "sftp", "tel"].map String.data)

/-- urllib.parse._splitparams: with a '/' present the params start at the
first ';' inside the last path segment, otherwise at the first ';' of the
whole path; no ';' there means no params. -/
def splitParams (path : List Char) : List Char × List Char :=
  if path.contains '/' then
    let seg := (path.reverse.takeWhile (fun c => c ≠ '/')).reverse
    let pre := path.take (path.length - seg.length)
    match splitFirst (fun c => c = ';') seg with
    | (_, none) => (path, [])
    | (a, some b) => (pre ++ a, b)
  else
    match splitFirst (fun c => c = ';') path with
    | (_, none) => (path, [])
    | (a, some b) => (a, b)

/-- Result record of urlparse. -/
structure ParseRes where
  scheme : List Char
  netloc : List Char
  path : List Char
  params : List Char
  query : List Char
  fragment : List Char
deriving DecidableEq

/-- urllib.parse.urlparse: urlsplit plus params splitting, applied only for
schemes in uses_params and paths containing ';'. -/
def urlparse (l : List Char) : ParseRes :=
  let s := urlsplit l
  let pp := if s.scheme ∈ uses_params ∧ s.path.contains ';' then splitParams s.path
    else (s.path, [])
  ⟨s.scheme, s.netloc, pp.1, pp.2, s.query, s.fragment⟩

/-- urllib.parse.urlunsplit of CPython 3.11: the '//' marker is restored
when a netloc is present, or when the scheme uses one and the path does not
already begin with '//'. -/
def urlunsplit (scheme netloc url query fragment : List Char) : List Char :=
  let url1 :=
    if netloc ≠ [] ∨ (scheme ≠ [] ∧ scheme ∈ uses_netloc ∧ url.take 2 ≠ ['/', '/']) then
      '/' :: '/' :: (netloc ++ (if url ≠ [] ∧ url.take 1 ≠ ['/'] then '/' :: url else url))
    else url
  let url2 := if scheme ≠ [] then scheme ++ ':' :: url1 else url1
  let url3 := if query ≠ [] then url2 ++ '?' :: query else url2
  if fragment ≠ [] then url3 ++ '#' :: fragment else url3

/-- urllib.parse.urlunparse: params are reattached with ';' only when
nonempty. -/
def urlunparse (p : ParseRes) : List Char :=
  let url := if p.params ≠ [] then p.path ++ ';' :: p.params else p.path
  urlunsplit p.scheme p.netloc url p.query p.fragment

/-- Python str.rstrip("/"): drop every trailing slash. -/
def rstripSlash (l : List Char) : List Char :=
  (l.reverse.dropWhile (fun c => c = '/')).reverse

/-- normalize_url (views.py:114-115) over characters:
urlparse(url)._replace(query="", fragment="").geturl().rstrip("/"). -/
def normList (l : List Char) : List Char :=
  rstripSlash (urlunparse { urlparse l with query := [], fragment := [] })

/-- normalize_url (views.py:114-115). -/
def normalize_url (s : String) : String := String.mk (normList s.data)

end SG.UrlPy

namespace SG.Views

open SG

/-! ## Claim C8: add_comment_url (views.py:232-319) and extract_post_id -/

/-- ASCII alphanumeric class of the posts pattern. -/
def isAsciiAlnum (c : Char) : Bool := isAsciiAlpha c || isAsciiDigit c

/-- Match, at the head of l, a literal followed by a nonempty greedy run of
class characters; the run is the capture. -/
def matchAt (lit : List Char) (cls : Char → Bool) (l : List Char) : Option (List Char) :=
  if lit.isPrefixOf l then
    let cap := (l.drop lit.length).takeWhile cls
    if cap.isEmpty then none else some cap
  else none

/-- re.search of a literal-then-class-run pattern: leftmost position where
the full pattern matches, greedy capture.  The digit class is modeled as
ASCII. -/
def searchLitCapture (lit : List Char) (cls : Char → Bool) : List Char → Option (List Char)
  | [] => none
  | c :: cs =>
    match matchAt lit cls (c :: cs) with
    | some cap => some cap
    | none => searchLitCapture lit cls cs

/-- extract_post_id (views.py:99-112): tries the six patterns in order —
permalink digits, posts alphanumerics, story_fbid digits, /videos/ digits,
fbid digits, comment_id digits — returning the first capture, else None. -/
def extract_post_id (url : String) : Option String :=
  match searchLitCapture "permalink/".data isAsciiDigit url.data with
  | some c => some (String.mk c)
  | none =>
  match searchLitCapture "posts/".data isAsciiAlnum url.data with
  | some c => some (String.mk c)
  | none =>
  match searchLitCapture "story_fbid=".data isAsciiDigit url.data with
  | some c => some (String.mk c)
  | none =>
  match searchLitCapture "/videos/".data isAsciiDigit url.data with
  | some c => some (String.mk c)
  | none =>
  match searchLitCapture "fbid=".data isAsciiDigit url.data with
  | some c => some (String.mk c)
  | none => (searchLitCapture "comment_id=".data isAsciiDigit url.data).map String.mk

/-- Comment row written by the seeding branch (views.py:270-281): statuses
and sentiment columns stay at their unset defaults. -/
def seedingRow (nu : String) (dashId : Nat) (c : ScrapedComment) : FacebookComment :=
  { blankComment with
    post_url := nu
    dashboard := dashId
    author := c.author
    profile_img_url := c.profile_img_url
    content := c.content
    reaction := c.reaction
    timestamp_text := c.timestamp_text
    image_url := c.image_url
    reply := c.reply }

/-- Comment row written by the activity branch of add_comment_url
(views.py:301-315), carrying the Thai status literals; a None author is
never in the name sets. -/
def activityThaiRow (nu : String) (dashId : Nat) (likes shares : List String)
    (c : ScrapedComment) : FacebookComment :=
  { blankComment with
    post_url := nu
    dashboard := dashId
    author := c.author
    profile_img_url := c.profile_img_url
    content := c.content
    reaction := c.reaction
    timestamp_text := c.timestamp_text
    image_url := c.image_url
    reply := c.reply
    like_status := some (match c.author with
      | some a => if a ∈ likes then "ถูกใจแล้ว" else "ยังไม่ถูกใจ"
      | none => "ยังไม่ถูกใจ")
    share_status := some (match c.author with
      | some a => if a ∈ shares then "แชร์แล้ว" else "ยังไม่แชร์"
      | none => "ยังไม่แชร์") }

/-- HTTP request to add_comment_url: the POST fields and GET query
parameters the handler reads, each possibly absent. -/
structure CommentRequest where
  method : String
  post_post_url : Option String
  post_dashboard_name : Option String
  post_dashboard_type : Option String
  get_url : Option String
  get_dashboard_type : Option String
deriving DecidableEq

/-- CommentDashboard row created by add_comment_url. -/
structure Dashboard where
  link_url : String
  dashboard_name : String
  dashboard_type : String
deriving DecidableEq

/-- Outcome of add_comment_url: a redirect to the index for other methods, a
400 text error, an uncaught TypeError (POST with neither a truthy
dashboard_name nor a post_url reaches extract_post_id(None)), or the created
dashboard with its created comment rows and redirect target.  The screenshot
attachment of the seeding branch is a filesystem side effect outside the
claims and is not modeled. -/
inductive AddCommentResult where
  | redirectIndex
  | badRequest
  | serverError
  | ok (dash : Dashboard) (rows : List FacebookComment) (redirect : String)
deriving DecidableEq

/-- Shared tail of add_comment_url (views.py:246-319): the 400 checks, URL
validation and normalization, dashboard creation, branch on dashboard type,
and the final redirect.  The URL validator (Django URLValidator, an external
dependency) is a parameter. -/
def finishAddComment (validateUrl : String → Bool)
    (seedScrape activityScrape : String → List ScrapedComment)
    (likeScrape shareScrape : String → List String) (dashId : Nat)
    (link_url dashboard_name : Option String) (dashboard_type : String) :
    AddCommentResult :=
  if pyTruthyStr link_url = false then .badRequest
  else
    let u := link_url.getD ""
    if validateUrl u = false then .badRequest
    else
      let nu := UrlPy.normalize_url u
      let dash : Dashboard := ⟨nu,
        (if pyTruthyStr dashboard_name then
          String.mk ((dashboard_name.getD "").data.take 255)
        else ""), dashboard_type⟩
      let rows :=
        if dashboard_type = "seeding" then
          (seedScrape u).map (seedingRow nu dashId)
        else if dashboard_type = "activity" then
          (activityScrape u).map (activityThaiRow nu dashId (likeScrape u) (shareScrape u))
        else []
      .ok dash rows ("/comment-dashboard/?post_url=" ++ nu)

/-- add_comment_url (views.py:232-319).  POST reads post_url,
dashboard_name and dashboard_type from the form (the name defaulting to the
extracted post id, the type to "seeding"); GET reads url and dashboard_type
from the query string with the name always the extracted id; other methods
redirect to the index. -/
def add_comment_url (validateUrl : String → Bool)
    (seedScrape activityScrape : String → List ScrapedComment)
    (likeScrape shareScrape : String → List String) (dashId : Nat)
    (req : CommentRequest) : AddCommentResult :=
  if req.method = "POST" then
    let link_url := req.post_post_url
    if pyTruthyStr req.post_dashboard_name = false ∧ link_url = none then .serverError
    else
      finishAddComment validateUrl seedScrape activityScrape likeScrape shareScrape dashId
        link_url
        (pyOrStr req.post_dashboard_name (link_url.bind extract_post_id))
        ((pyOrStr req.post_dashboard_type (some "seeding")).getD "seeding")
  else if req.method = "GET" then
    let link_url := req.get_url
    finishAddComment validateUrl seedScrape activityScrape likeScrape shareScrape dashId
      link_url
      (if pyTruthyStr link_url then link_url.bind extract_post_id else none)
      ((pyOrStr req.get_dashboard_type (some "seeding")).getD "seeding")
  else .redirectIndex

/-- Dashboard name defaulted from the extracted post id, truncated to 255
characters, empty when extraction fails (views.py:235,240,260). -/
def dashNameOf (u : String) : String :=
  match extract_post_id u with
  | some s => String.mk (s.data.take 255)
  | none => ""

end SG.Views

namespace SG.Views

open SG

/-- Claim C8 counterexample: a POST carrying a well-formed URL, no explicit
dashboard type, but an explicit dashboard name, creates the dashboard with
the submitted name — not the extracted post identifier ("abc") as the claim
universally asserts. -/
theorem c8_counterexample :
    add_comment_url (fun _ => true) (fun _ => []) (fun _ => []) (fun _ => []) (fun _ => []) 7
        ⟨"POST", some "https://x.com/posts/abc", some "custom", none, none, none⟩
      = .ok ⟨"https://x.com/posts/abc", "custom", "seeding"⟩ []
          "/comment-dashboard/?post_url=https://x.com/posts/abc"
    ∧ extract_post_id "https://x.com/posts/abc" = some "abc"
    ∧ "custom" ≠ "abc" := by
  refine ⟨by decide, by decide, by decide⟩

/-- Claim C8 as amended: for every request carrying a well-formed nonempty
URL, no explicit dashboard type AND no explicit (truthy) dashboard name —
POST with the name field absent or empty, or any GET — exactly one
dashboard of type "seeding" is created whose link URL is the normalized
submitted URL and whose name is the extracted post identifier truncated to
255 characters (empty when extraction fails), and one comment row is
created per scraper comment, each linked to that dashboard and carrying the
normalized post URL. -/
theorem c8_add_comment_url_amended (validateUrl : String → Bool)
    (seedScrape activityScrape : String → List ScrapedComment)
    (likeScrape shareScrape : String → List String) (dashId : Nat) (u : String)
    (hval : validateUrl u = true) (hne : u.isEmpty = false) :
    (∀ nameField : Option String, pyTruthyStr nameField = false →
      add_comment_url validateUrl seedScrape activityScrape likeScrape shareScrape dashId
          ⟨"POST", some u, nameField, none, none, none⟩
        = .ok ⟨UrlPy.normalize_url u, dashNameOf u, "seeding"⟩
            ((seedScrape u).map (seedingRow (UrlPy.normalize_url u) dashId))
            ("/comment-dashboard/?post_url=" ++ UrlPy.normalize_url u))
    ∧ (add_comment_url validateUrl seedScrape activityScrape likeScrape shareScrape dashId
          ⟨"GET", none, none, none, some u, none⟩
        = .ok ⟨UrlPy.normalize_url u, dashNameOf u, "seeding"⟩
            ((seedScrape u).map (seedingRow (UrlPy.normalize_url u) dashId))
            ("/comment-dashboard/?post_url=" ++ UrlPy.normalize_url u))
    ∧ (∀ r ∈ (seedScrape u).map (seedingRow (UrlPy.normalize_url u) dashId),
        r.post_url = UrlPy.normalize_url u ∧ r.dashboard = dashId)
    ∧ ((seedScrape u).map (seedingRow (UrlPy.normalize_url u) dashId)).length
        = (seedScrape u).length := by
  have hname : (if pyTruthyStr (extract_post_id u) then
        String.mk (((extract_post_id u).getD "").data.take 255)
      else "") = dashNameOf u := by
    rw [dashNameOf]
    rcases hext : extract_post_id u with _ | s
    · simp [pyTruthyStr]
    · obtain ⟨data⟩ := s
      cases data with
      | nil => simp [pyTruthyStr]
      | cons c cs =>
        have hsn : (⟨c :: cs⟩ : String).isEmpty = false := by
          rw [Bool.eq_false_iff]
          intro h
          have := congrArg String.data ((String.isEmpty_iff _).mp h)
          simp at this
        simp [pyTruthyStr, hsn]
  have hut : pyTruthyStr (some u) = true := by simp [pyTruthyStr, hne]
  have hfin : ∀ nm : Option String,
      finishAddComment validateUrl seedScrape activityScrape likeScrape shareScrape dashId
        (some u) nm "seeding"
      = .ok ⟨UrlPy.normalize_url u,
            (if pyTruthyStr nm then String.mk ((nm.getD "").data.take 255) else ""),
            "seeding"⟩
          ((seedScrape u).map (seedingRow (UrlPy.normalize_url u) dashId))
          ("/comment-dashboard/?post_url=" ++ UrlPy.normalize_url u) := by
    intro nm
    rw [finishAddComment]
    rw [if_neg (by simp [hut]), if_neg (by simp [hval])]
    rfl
  refine ⟨?_, ?_, ?_, by rw [List.length_map]⟩
  · intro nameField hnf
    have hstep : add_comment_url validateUrl seedScrape activityScrape likeScrape
        shareScrape dashId ⟨"POST", some u, nameField, none, none, none⟩
      = if pyTruthyStr nameField = false ∧ (some u : Option String) = none then
          .serverError
        else finishAddComment validateUrl seedScrape activityScrape likeScrape
          shareScrape dashId (some u) (pyOrStr nameField (extract_post_id u))
          "seeding" := rfl
    rw [hstep, if_neg (by simp), hfin]
    have h0 : pyOrStr nameField (extract_post_id u) = extract_post_id u := by
      rw [pyOrStr, if_neg (by simp [hnf])]
    rw [h0, hname]
  · have hstep : add_comment_url validateUrl seedScrape activityScrape likeScrape
        shareScrape dashId ⟨"GET", none, none, none, some u, none⟩
      = finishAddComment validateUrl seedScrape activityScrape likeScrape
          shareScrape dashId (some u)
          (if pyTruthyStr (some u) then extract_post_id u else none)
          "seeding" := rfl
    rw [hstep, if_pos hut, hfin, hname]
  · intro r hr
    rw [List.mem_map] at hr
    obtain ⟨c, _, hc⟩ := hr
    subst hc
    exact ⟨rfl, rfl⟩

/-- Witness for c8_add_comment_url_amended at a concrete POST request. -/
theorem c8_add_comment_url_amended_witness :
    add_comment_url (fun _ => true) (fun _ => []) (fun _ => []) (fun _ => []) (fun _ => []) 7
        ⟨"POST", some "https://x.com/posts/abc", none, none, none, none⟩
      = .ok ⟨UrlPy.normalize_url "https://x.com/posts/abc",
            dashNameOf "https://x.com/posts/abc", "seeding"⟩
          (([] : List ScrapedComment).map
            (seedingRow (UrlPy.normalize_url "https://x.com/posts/abc") 7))
          ("/comment-dashboard/?post_url=" ++ UrlPy.normalize_url "https://x.com/posts/abc") :=
  (c8_add_comment_url_amended (fun _ => true) (fun _ => []) (fun _ => [])
    (fun _ => []) (fun _ => []) 7 "https://x.com/posts/abc" rfl rfl).1 none rfl

end SG.Views

namespace SG.UrlPy

open SG

/-! ## Toolkit for the normalize_url idempotence proof -/

/-- A character satisfying a Boolean class differs from any character
failing it. -/
theorem ne_of_class {f : Char → Bool} {c x : Char} (h1 : f c = true)
    (h2 : f x = false) : c ≠ x := by
  intro he
  subst he
  rw [h1] at h2
  cases h2

/-- Triple-slash detector: true when "///" occurs as a contiguous
substring. -/
def hasTripleSlash : List Char → Bool
  | [] => false
  | c :: rest => (decide (c = '/') && decide (rest.take 2 = ['/', '/'])) || hasTripleSlash rest

theorem hasTripleSlash_append (a b : List Char) (h : hasTripleSlash b = true) :
    hasTripleSlash (a ++ b) = true := by
  induction a with
  | nil => simpa using h
  | cons c cs ih => simp [hasTripleSlash, ih]

theorem lowerChar_toNat (c : Char) :
    (lowerChar c).toNat = if 65 ≤ c.toNat ∧ c.toNat ≤ 90 then c.toNat + 32 else c.toNat := by
  rw [lowerChar]
  split
  · rfl
  · rfl

theorem lowerChar_eq_self {c : Char} (h : ¬(65 ≤ c.toNat ∧ c.toNat ≤ 90)) :
    lowerChar c = c := by
  rw [lowerChar, dif_neg (by omega)]

theorem isAsciiAlpha_lowerChar {c : Char} (h : isAsciiAlpha c = true) :
    isAsciiAlpha (lowerChar c) = true := by
  simp only [isAsciiAlpha, Bool.or_eq_true, Bool.and_eq_true, decide_eq_true_eq] at h ⊢
  rw [lowerChar_toNat]
  split <;> omega

theorem toNat_isAsciiDigit {c : Char} (h : isAsciiDigit c = true) :
    48 ≤ c.toNat ∧ c.toNat ≤ 57 := by
  simp only [isAsciiDigit, Bool.and_eq_true, decide_eq_true_eq] at h
  exact h

/-- Character range of scheme characters: letters, digits, plus, minus,
dot. -/
theorem isSchemeChar_toNat {c : Char} (h : isSchemeChar c = true) :
    (65 ≤ c.toNat ∧ c.toNat ≤ 90) ∨ (97 ≤ c.toNat ∧ c.toNat ≤ 122)
    ∨ (48 ≤ c.toNat ∧ c.toNat ≤ 57) ∨ c.toNat = 43 ∨ c.toNat = 45 ∨ c.toNat = 46 := by
  simp only [isSchemeChar, isAsciiAlpha, isAsciiDigit, Bool.or_eq_true, Bool.and_eq_true,
    decide_eq_true_eq] at h
  rcases h with ((((h | h) | h) | h) | h) | h
  · exact Or.inl h
  · exact Or.inr (Or.inl h)
  · exact Or.inr (Or.inr (Or.inl h))
  · subst h; decide
  · subst h; decide
  · subst h; decide

theorem isSchemeChar_lowerChar {c : Char} (h : isSchemeChar c = true) :
    isSchemeChar (lowerChar c) = true := by
  by_cases ha : isAsciiAlpha c = true
  · have h2 := isAsciiAlpha_lowerChar ha
    simp [isSchemeChar, h2]
  · have hr : ¬(65 ≤ c.toNat ∧ c.toNat ≤ 90) := by
      intro hx
      refine ha ?_
      simp only [isAsciiAlpha, Bool.or_eq_true, Bool.and_eq_true, decide_eq_true_eq]
      exact Or.inl hx
    rw [lowerChar_eq_self hr]
    exact h

theorem lowerChar_idem (c : Char) : lowerChar (lowerChar c) = lowerChar c := by
  by_cases hr : 65 ≤ c.toNat ∧ c.toNat ≤ 90
  · have h2 : (lowerChar c).toNat = c.toNat + 32 := by rw [lowerChar_toNat, if_pos hr]
    exact lowerChar_eq_self (by omega)
  · rw [lowerChar_eq_self hr, lowerChar_eq_self hr]

theorem schemeChar_not_special {c : Char} (h : isSchemeChar c = true) :
    decide (c = ':') = false ∧ decide (c = '/') = false ∧ decide (c = '#') = false
    ∧ decide (c = '?') = false ∧ decide (c = ';') = false ∧ isNetlocDelim c = false
    ∧ isUnsafeUrlChar c = false ∧ isC0OrSpace c = false := by
  have ht := isSchemeChar_toNat h
  refine ⟨?_, ?_, ?_, ?_, ?_, ?_, ?_, ?_⟩
  · exact decide_eq_false (fun he => by subst he; revert ht; decide)
  · exact decide_eq_false (fun he => by subst he; revert ht; decide)
  · exact decide_eq_false (fun he => by subst he; revert ht; decide)
  · exact decide_eq_false (fun he => by subst he; revert ht; decide)
  · exact decide_eq_false (fun he => by subst he; revert ht; decide)
  · simp only [isNetlocDelim, Bool.or_eq_false_iff]
    refine ⟨⟨?_, ?_⟩, ?_⟩ <;>
      exact decide_eq_false (fun he => by subst he; revert ht; decide)
  · have h1 : decide (c = '\t') = false :=
      decide_eq_false (fun he => by subst he; revert ht; decide)
    have h2 : decide (c = '\r') = false :=
      decide_eq_false (fun he => by subst he; revert ht; decide)
    have h3 : decide (c = '\n') = false :=
      decide_eq_false (fun he => by subst he; revert ht; decide)
    simp [isUnsafeUrlChar, h1, h2, h3]
  · exact decide_eq_false (by omega)

/-- Specification of splitFirst: either no character satisfies p and the
input is returned whole, or the input decomposes around the first hit. -/
theorem splitFirst_spec (p : Char → Bool) (l : List Char) :
    (splitFirst p l = (l, none) ∧ ∀ c ∈ l, p c = false)
    ∨ ∃ a m b, splitFirst p l = (a, some b) ∧ l = a ++ m :: b
        ∧ (∀ c ∈ a, p c = false) ∧ p m = true := by
  induction l with
  | nil => exact Or.inl ⟨rfl, by simp⟩
  | cons c cs ih =>
    by_cases hc : p c
    · refine Or.inr ⟨[], c, cs, ?_, by simp, by simp, hc⟩
      simp [splitFirst, List.dropWhile_cons, hc, List.takeWhile_cons]
    · rcases ih with ⟨h1, h2⟩ | ⟨a, m, b, h1, h2, h3, h4⟩
      · refine Or.inl ⟨?_, ?_⟩
        · simp only [splitFirst, List.dropWhile_cons, List.takeWhile_cons] at h1 ⊢
          rcases hd : cs.dropWhile (fun x => !p x) with _ | ⟨d, ds⟩
          · simp_all
          · simp_all
        · intro x hx
          rcases List.mem_cons.mp hx with rfl | hx
          · simpa using hc
          · exact h2 x hx
      · refine Or.inr ⟨c :: a, m, b, ?_, by simp [h2], ?_, h4⟩
        · simp only [splitFirst, List.dropWhile_cons, List.takeWhile_cons] at h1 ⊢
          rcases hd : cs.dropWhile (fun x => !p x) with _ | ⟨d, ds⟩
          · simp_all
          · simp_all
        · intro x hx
          rcases List.mem_cons.mp hx with rfl | hx
          · simpa using hc
          · exact h3 x hx

/-- splitFirst around an explicit first marked character. -/
theorem splitFirst_marked (p : Char → Bool) (a : List Char) (m : Char) (b : List Char)
    (ha : ∀ c ∈ a, p c = false) (hm : p m = true) :
    splitFirst p (a ++ m :: b) = (a, some b) := by
  induction a with
  | nil => simp [splitFirst, List.dropWhile_cons, hm, List.takeWhile_cons]
  | cons c cs ih =>
    have hc : p c = false := ha c (by simp)
    have ih2 := ih (fun x hx => ha x (by simp [hx]))
    simp only [splitFirst, List.cons_append, List.dropWhile_cons, List.takeWhile_cons,
      hc] at ih2 ⊢
    rcases hd : (cs ++ m :: b).dropWhile (fun x => !p x) with _ | ⟨d, ds⟩
    · simp_all
    · simp_all

/-- splitFirst with no satisfying character. -/
theorem splitFirst_none (p : Char → Bool) (l : List Char)
    (h : ∀ c ∈ l, p c = false) : splitFirst p l = (l, none) := by
  rcases splitFirst_spec p l with ⟨h1, _⟩ | ⟨a, m, b, _, h2, _, h4⟩
  · exact h1
  · exact absurd (h m (by simp [h2])) (by simp [h4])

theorem dropWhile_head_false (p : Char → Bool) (l : List Char) (m : Char) (t : List Char)
    (h : l.dropWhile p = m :: t) : p m = false := by
  induction l with
  | nil => cases h
  | cons c cs ih =>
    rw [List.dropWhile_cons] at h
    by_cases hc : p c
    · rw [if_pos hc] at h
      exact ih h
    · rw [if_neg hc] at h
      cases h
      simpa using hc

theorem dropWhile_decomp (p : Char → Bool) (l : List Char) :
    ∃ a, a ++ l.dropWhile p = l ∧ ∀ c ∈ a, p c = true := by
  exact ⟨l.takeWhile p, List.takeWhile_append_dropWhile p l, fun c hc => List.mem_takeWhile_imp hc⟩

theorem dropWhile_idem (p : Char → Bool) (l : List Char) :
    (l.dropWhile p).dropWhile p = l.dropWhile p := by
  rcases hd : l.dropWhile p with _ | ⟨m, t⟩
  · rfl
  · rw [List.dropWhile_cons, if_neg]
    simp [dropWhile_head_false p l m t hd]

/-- takeWhile/dropWhile across an append whose left part satisfies p and
whose right part starts with a failure (or is empty). -/
theorem takeDrop_append (p : Char → Bool) (a b : List Char)
    (ha : ∀ c ∈ a, p c = true) (hb : ∀ m t, b = m :: t → p m = false) :
    (a ++ b).takeWhile p = a ∧ (a ++ b).dropWhile p = b := by
  induction a with
  | nil =>
    rcases b with _ | ⟨m, t⟩
    · exact ⟨rfl, rfl⟩
    · have := hb m t rfl
      constructor
      · rw [List.nil_append, List.takeWhile_cons, if_neg (by simp [this])]
      · rw [List.nil_append, List.dropWhile_cons, if_neg (by simp [this])]
  | cons c cs ih =>
    have hc : p c = true := ha c (by simp)
    have ih2 := ih (fun x hx => ha x (by simp [hx]))
    constructor
    · rw [List.cons_append, List.takeWhile_cons, if_pos hc, ih2.1]
    · rw [List.cons_append, List.dropWhile_cons, if_pos hc, ih2.2]

theorem rstripSlash_ne_nil_iff (b : List Char) :
    rstripSlash b ≠ [] ↔ b.reverse.dropWhile (fun c => c = '/') ≠ [] := by
  rw [rstripSlash]
  constructor
  · intro h he
    exact h (by rw [he]; rfl)
  · intro h he
    exact h (by simpa using congrArg List.reverse he)

theorem rstripSlash_append (a b : List Char) (hb : rstripSlash b ≠ []) :
    rstripSlash (a ++ b) = a ++ rstripSlash b := by
  rw [rstripSlash, List.reverse_append, List.dropWhile_append]
  rw [if_neg]
  · rw [List.reverse_append, List.reverse_reverse, rstripSlash]
  · have h2 := (rstripSlash_ne_nil_iff b).mp hb
    simpa [List.isEmpty_iff] using h2

theorem rstripSlash_append_nil (a b : List Char) (hb : rstripSlash b = []) :
    rstripSlash (a ++ b) = rstripSlash a := by
  rw [rstripSlash, List.reverse_append, List.dropWhile_append]
  rw [if_pos]
  · rfl
  · have h2 : b.reverse.dropWhile (fun c => c = '/') = [] := by
      by_contra hc
      exact (rstripSlash_ne_nil_iff b).mpr hc hb
    simp [List.isEmpty_iff, h2]

theorem rstripSlash_singleton {c : Char} (hc : decide (c = '/') = false) :
    rstripSlash [c] = [c] := by
  rw [rstripSlash]
  have : List.reverse [c] = [c] := rfl
  rw [this, List.dropWhile_cons, if_neg (by simp_all)]
  rfl

theorem rstripSlash_append_single (a : List Char) {c : Char}
    (hc : decide (c = '/') = false) : rstripSlash (a ++ [c]) = a ++ [c] := by
  rw [rstripSlash_append a [c] (by rw [rstripSlash_singleton hc]; exact (by simp)),
    rstripSlash_singleton hc]

theorem rstripSlash_of_no_slash (l : List Char)
    (h : ∀ c ∈ l, decide (c = '/') = false) : rstripSlash l = l := by
  rw [rstripSlash]
  rcases hr : l.reverse with _ | ⟨c, t⟩
  · simp_all
  · rw [List.dropWhile_cons, if_neg]
    · rw [← hr, List.reverse_reverse]
    · have hm : c ∈ l := by
        rw [← List.mem_reverse, hr]
        simp
      simp [h c hm]

theorem rstripSlash_idem (l : List Char) :
    rstripSlash (rstripSlash l) = rstripSlash l := by
  simp only [rstripSlash, List.reverse_reverse, dropWhile_idem]

theorem rstripSlash_decomp (l : List Char) :
    ∃ t, rstripSlash l ++ t = l ∧ ∀ c ∈ t, c = '/' := by
  refine ⟨(l.reverse.takeWhile (fun c => c = '/')).reverse, ?_, ?_⟩
  · rw [rstripSlash, ← List.reverse_append, List.takeWhile_append_dropWhile,
      List.reverse_reverse]
  · intro x hx
    rw [List.mem_reverse] at hx
    have h2 := @List.mem_takeWhile_imp Char (fun c => decide (c = '/')) l.reverse x hx
    exact of_decide_eq_true h2

theorem rstripSlash_last (l : List Char) :
    rstripSlash l = [] ∨ ∃ a c, rstripSlash l = a ++ [c] ∧ decide (c = '/') = false := by
  rcases hd : l.reverse.dropWhile (fun c => c = '/') with _ | ⟨m, t⟩
  · left
    rw [rstripSlash, hd]
    rfl
  · right
    refine ⟨t.reverse, m, ?_, dropWhile_head_false _ _ _ _ hd⟩
    rw [rstripSlash, hd, List.reverse_cons]

theorem take_eq_of_append₂ {p t l : List Char} {x y : Char} (h : p ++ t = l)
    (h2 : p.take 2 = [x, y]) : l.take 2 = [x, y] := by
  rcases p with _ | ⟨c1, p1⟩
  · cases h2
  rcases p1 with _ | ⟨c2, p2⟩
  · cases h2
  simp only [List.take, List.cons.injEq] at h2
  subst h
  simp [List.take, h2.1, h2.2.1]

theorem take_eq_of_append₁ {p t l : List Char} {x : Char} (h : p ++ t = l)
    (h2 : p.take 1 = [x]) : l.take 1 = [x] := by
  rcases p with _ | ⟨c1, p1⟩
  · cases h2
  simp only [List.take, List.cons.injEq] at h2
  subst h
  simp [List.take, h2.1]

theorem splitFirst_fst (p : Char → Bool) (l : List Char) :
    ∃ t, (splitFirst p l).1 ++ t = l ∧ ∀ c ∈ (splitFirst p l).1, p c = false := by
  rcases splitFirst_spec p l with ⟨h1, h2⟩ | ⟨a, m, b, h1, h2, h3, h4⟩
  · rw [h1]
    exact ⟨[], by simp, h2⟩
  · rw [h1]
    exact ⟨m :: b, h2.symm, h3⟩

theorem eq_cons2_of_take2 {l : List Char} {x y : Char} (h : l.take 2 = [x, y]) :
    ∃ r, l = x :: y :: r := by
  rcases l with _ | ⟨a, _ | ⟨b, r⟩⟩
  · simp at h
  · simp at h
  · have h2 : a :: b :: List.take 0 r = [x, y] := h
    injection h2 with ha h3
    injection h3 with hb _
    exact ⟨r, by rw [ha, hb]⟩

theorem takeWhile_eq_nil_cases (p : Char → Bool) (r : List Char) (h : r.takeWhile p = []) :
    r = [] ∨ ∃ c r2, r = c :: r2 ∧ p c = false := by
  rcases r with _ | ⟨c, r2⟩
  · exact Or.inl rfl
  · right
    refine ⟨c, r2, rfl, ?_⟩
    by_contra hc
    rw [List.takeWhile_cons, if_pos (by simpa using hc)] at h
    cases h

theorem no_unsafe_of_mem {l : List Char} (h3 : ('\t' : Char) ∉ l)
    (h4 : ('\r' : Char) ∉ l) (h5 : ('\n' : Char) ∉ l) :
    ∀ c ∈ l, isUnsafeUrlChar c = false := by
  intro c hc
  simp only [isUnsafeUrlChar, Bool.or_eq_false_iff]
  refine ⟨⟨?_, ?_⟩, ?_⟩
  · exact decide_eq_false (fun he => h3 (he ▸ hc))
  · exact decide_eq_false (fun he => h4 (he ▸ hc))
  · exact decide_eq_false (fun he => h5 (he ▸ hc))

theorem cleanUrl_drop_only (l : List Char) (h : ∀ c ∈ l, isUnsafeUrlChar c = false) :
    cleanUrl l = l.dropWhile isC0OrSpace := by
  rw [cleanUrl, List.filter_eq_self.mpr]
  intro a ha
  obtain ⟨pre, hpre, _⟩ := dropWhile_decomp isC0OrSpace l
  have ha2 : a ∈ l := by
    rw [← hpre]
    exact List.mem_append_right _ ha
  simp [h a ha2]

theorem cleanUrl_eq_self (l : List Char)
    (hhead : ∀ c t, l = c :: t → isC0OrSpace c = false)
    (hok : ∀ c ∈ l, isUnsafeUrlChar c = false) : cleanUrl l = l := by
  rw [cleanUrl_drop_only l hok]
  rcases l with _ | ⟨c, t⟩
  · rfl
  · rw [List.dropWhile_cons, if_neg]
    simp [hhead c t rfl]

theorem hasTripleSlash_mono (a b l : List Char) (h : a ++ b = l)
    (hl : hasTripleSlash l = false) : hasTripleSlash b = false := by
  by_contra hc
  rw [← h, hasTripleSlash_append a b (by simpa using hc)] at hl
  cases hl

/-- A well-formed stored scheme: nonempty, ASCII-letter head, scheme
characters throughout, already lowercase. -/
def SchemeOK (s : List Char) : Prop :=
  (∃ c cs, s = c :: cs ∧ isAsciiAlpha c = true)
  ∧ (∀ x ∈ s, isSchemeChar x = true) ∧ s.map lowerChar = s

theorem schemeOK_of (pre : List Char) (hne : ∃ c cs, pre = c :: cs ∧ isAsciiAlpha c = true)
    (hall : ∀ x ∈ pre, isSchemeChar x = true) : SchemeOK (pre.map lowerChar) := by
  obtain ⟨c, cs, rfl, hc⟩ := hne
  refine ⟨⟨lowerChar c, cs.map lowerChar, by simp, isAsciiAlpha_lowerChar hc⟩, ?_, ?_⟩
  · intro x hx
    rw [List.mem_map] at hx
    obtain ⟨y, hy, rfl⟩ := hx
    exact isSchemeChar_lowerChar (hall y hy)
  · rw [List.map_map]
    exact List.map_congr_left (fun a _ => lowerChar_idem a)

/-- Full case analysis of detectScheme: no scheme recognized, or the input
decomposes as scheme, colon, rest with the scheme stored lowercased. -/
theorem detectScheme_spec (l : List Char) :
    detectScheme l = ([], l)
    ∨ ∃ pre rest, detectScheme l = (pre.map lowerChar, rest) ∧ l = pre ++ ':' :: rest
        ∧ (∃ c cs, pre = c :: cs ∧ isAsciiAlpha c = true)
        ∧ (∀ x ∈ pre, isSchemeChar x = true) := by
  rcases splitFirst_spec (fun c => decide (c = ':')) l with ⟨hsp, h2⟩ | ⟨a, m, b, hsp, h2, h3, h4⟩
  · left
    simp only [detectScheme]
    rw [hsp]
  · have hm : m = ':' := of_decide_eq_true h4
    subst hm
    rcases a with _ | ⟨c, cs⟩
    · left
      simp only [detectScheme]
      rw [hsp]
    · by_cases hc : (isAsciiAlpha c && (c :: cs).all isSchemeChar) = true
      · right
        have hc2 := hc
        rw [Bool.and_eq_true] at hc2
        refine ⟨c :: cs, b, ?_, h2, ⟨c, cs, rfl, hc2.1⟩, ?_⟩
        · simp only [detectScheme]
          rw [hsp]
          dsimp only
          rw [if_pos hc]
        · intro x hx
          have h5 := hc2.2
          rw [List.all_eq_true] at h5
          simpa using h5 x hx
      · left
        simp only [detectScheme]
        rw [hsp]
        dsimp only
        rw [if_neg hc]

theorem detectScheme_fst_nil (l : List Char) (h : (detectScheme l).1 = []) :
    detectScheme l = ([], l) := by
  rcases detectScheme_spec l with hd | ⟨pre, rest, hd, _, ⟨c, cs, rfl, _⟩, _⟩
  · exact hd
  · rw [hd] at h
    simp at h

theorem detectScheme_noalpha (l : List Char)
    (h : ∀ c t, l = c :: t → isAsciiAlpha c = false) : detectScheme l = ([], l) := by
  rcases detectScheme_spec l with hd | ⟨pre, rest, hd, h2, ⟨c, cs, rfl, hc⟩, _⟩
  · exact hd
  · rw [h c (cs ++ ':' :: rest) (by simpa using h2)] at hc
    cases hc

theorem detectScheme_of_prefix (a t b : List Char) (hb : a ++ t = b)
    (h : detectScheme b = ([], b)) : detectScheme a = ([], a) := by
  rcases detectScheme_spec a with hd | ⟨pre, rest, hd, h2, hne, hall⟩
  · exact hd
  · obtain ⟨c, cs, hpre, hc⟩ := hne
    have hb2 : b = pre ++ ':' :: (rest ++ t) := by
      rw [← hb, h2]
      simp
    have hds : detectScheme b = (pre.map lowerChar, rest ++ t) := by
      rw [hb2]
      have hsp := splitFirst_marked (fun x => decide (x = ':')) pre ':' (rest ++ t)
        (fun x hx => (schemeChar_not_special (hall x hx)).1) (by simp)
      have hcond : (isAsciiAlpha c && ((c :: cs).all isSchemeChar)) = true := by
        rw [Bool.and_eq_true]
        refine ⟨hc, ?_⟩
        rw [List.all_eq_true]
        intro x hx
        have hx2 : x ∈ pre := by rw [hpre]; exact hx
        simp [hall x hx2]
      simp only [detectScheme]
      rw [hsp, hpre]
      dsimp only
      rw [if_pos hcond, ← hpre]
    rw [h] at hds
    have hfst := congrArg Prod.fst hds
    rw [hpre] at hfst
    simp at hfst

/-- Assemble urlsplit from precomputed scheme and netloc stages. -/
theorem urlsplit_assemble (l s rest n rest2 : List Char)
    (hdet : detectScheme (cleanUrl l) = (s, rest))
    (hnr : (if rest.take 2 = ['/', '/'] then
        ((rest.drop 2).takeWhile (fun c => !isNetlocDelim c),
         (rest.drop 2).dropWhile (fun c => !isNetlocDelim c))
      else ([], rest)) = (n, rest2)) :
    urlsplit l = ⟨s, n,
      (splitFirst (fun c => decide (c = '?'))
        (splitFirst (fun c => decide (c = '#')) rest2).1).1,
      ((splitFirst (fun c => decide (c = '?'))
        (splitFirst (fun c => decide (c = '#')) rest2).1).2).getD [],
      ((splitFirst (fun c => decide (c = '#')) rest2).2).getD []⟩ := by
  simp only [urlsplit]
  rw [hdet]
  dsimp only
  rw [hnr]

theorem urlsplit_decomp (l : List Char)
    (h1 : (';' : Char) ∉ l) (h2 : hasTripleSlash l = false)
    (h3 : ('\t' : Char) ∉ l) (h4 : ('\r' : Char) ∉ l) (h5 : ('\n' : Char) ∉ l) :
    ∃ s n p q f, urlsplit l = ⟨s, n, p, q, f⟩
      ∧ (s = [] ∨ SchemeOK s)
      ∧ (∀ c ∈ n, isNetlocDelim c = false ∧ isUnsafeUrlChar c = false)
      ∧ (∀ c ∈ p, decide (c = '#') = false ∧ decide (c = '?') = false
          ∧ decide (c = ';') = false ∧ isUnsafeUrlChar c = false)
      ∧ (n ≠ [] → p = [] ∨ p.take 1 = ['/'])
      ∧ (n = [] → p.take 2 ≠ ['/', '/'])
      ∧ (s = [] → detectScheme p = ([], p))
      ∧ (s = [] → ∀ c t, p = c :: t → isC0OrSpace c = false) := by
  have hu := no_unsafe_of_mem h3 h4 h5
  have hcu : cleanUrl l = l.dropWhile isC0OrSpace := cleanUrl_drop_only l hu
  obtain ⟨pre0, hpre0, _⟩ := dropWhile_decomp isC0OrSpace l
  have hmem0 : ∀ c ∈ l.dropWhile isC0OrSpace, c ∈ l := fun c hc => by
    rw [← hpre0]
    exact List.mem_append_right _ hc
  have hts0 : hasTripleSlash (l.dropWhile isC0OrSpace) = false :=
    hasTripleSlash_mono pre0 _ _ hpre0 h2
  have hpack : ∃ s rest, detectScheme (cleanUrl l) = (s, rest)
      ∧ (s = [] ∨ SchemeOK s)
      ∧ (∀ c ∈ rest, c ∈ l)
      ∧ hasTripleSlash rest = false
      ∧ (s = [] → detectScheme rest = ([], rest))
      ∧ (s = [] → ∀ c t, rest = c :: t → isC0OrSpace c = false) := by
    rcases detectScheme_spec (l.dropWhile isC0OrSpace) with hdet
      | ⟨prS, rest, hdet, hdec, hneS, hallS⟩
    · refine ⟨[], l.dropWhile isC0OrSpace, by rw [hcu]; exact hdet, Or.inl rfl, hmem0,
        hts0, fun _ => hdet, fun _ c t h => dropWhile_head_false _ _ _ _ h⟩
    · refine ⟨prS.map lowerChar, rest, by rw [hcu]; exact hdet,
        Or.inr (schemeOK_of prS hneS hallS), ?_, ?_, ?_, ?_⟩
      · intro c hc
        apply hmem0
        rw [hdec]
        exact List.mem_append_right _ (List.mem_cons_of_mem _ hc)
      · refine hasTripleSlash_mono (prS ++ [':']) rest _ ?_ hts0
        rw [hdec]
        simp
      · intro hse
        obtain ⟨c, cs, hpre, _⟩ := hneS
        rw [hpre] at hse
        simp at hse
      · intro hse
        obtain ⟨c, cs, hpre, _⟩ := hneS
        rw [hpre] at hse
        simp at hse
  obtain ⟨s, rest, hdet2, hsOK, hrm, hrts, hdrest, hrhead⟩ := hpack
  by_cases hn2 : rest.take 2 = ['/', '/']
  · -- netloc branch
    obtain ⟨r, hr⟩ := eq_cons2_of_take2 hn2
    have hnr : (if rest.take 2 = ['/', '/'] then
        ((rest.drop 2).takeWhile (fun c => !isNetlocDelim c),
         (rest.drop 2).dropWhile (fun c => !isNetlocDelim c))
      else ([], rest)) =
        (r.takeWhile (fun c => !isNetlocDelim c), r.dropWhile (fun c => !isNetlocDelim c)) := by
      rw [if_pos hn2, hr]
      rfl
    have ha := urlsplit_assemble l s rest _ _ hdet2 hnr
    obtain ⟨t1, ht1, hf1⟩ :=
      splitFirst_fst (fun c => decide (c = '#')) (r.dropWhile (fun c => !isNetlocDelim c))
    obtain ⟨t2, ht2, hf2⟩ := splitFirst_fst (fun c => decide (c = '?'))
      ((splitFirst (fun c => decide (c = '#')) (r.dropWhile (fun c => !isNetlocDelim c))).1)
    have hPrest : (splitFirst (fun c => decide (c = '?'))
        ((splitFirst (fun c => decide (c = '#'))
          (r.dropWhile (fun c => !isNetlocDelim c))).1)).1 ++ (t2 ++ t1)
        = r.dropWhile (fun c => !isNetlocDelim c) := by
      rw [← List.append_assoc, ht2, ht1]
    have hrl : ∀ c ∈ r, c ∈ l := by
      intro c hc
      apply hrm
      rw [hr]
      simp [hc]
    have hR2r : ∀ c ∈ r.dropWhile (fun c => !isNetlocDelim c), c ∈ r := by
      obtain ⟨a0, ha0, _⟩ := dropWhile_decomp (fun c => !isNetlocDelim c) r
      intro c hc
      rw [← ha0]
      exact List.mem_append_right _ hc
    have hPmem : ∀ c ∈ (splitFirst (fun c => decide (c = '?'))
        ((splitFirst (fun c => decide (c = '#'))
          (r.dropWhile (fun c => !isNetlocDelim c))).1)).1, c ∈ l := by
      intro c hc
      apply hrl
      apply hR2r
      rw [← hPrest]
      exact List.mem_append_left _ hc
    have hPF1 : ∀ c ∈ (splitFirst (fun c => decide (c = '?'))
        ((splitFirst (fun c => decide (c = '#'))
          (r.dropWhile (fun c => !isNetlocDelim c))).1)).1,
        c ∈ (splitFirst (fun c => decide (c = '#'))
          (r.dropWhile (fun c => !isNetlocDelim c))).1 := by
      intro c hc
      rw [← ht2]
      exact List.mem_append_left _ hc
    have hPhead : ∀ c t, (splitFirst (fun c => decide (c = '?'))
        ((splitFirst (fun c => decide (c = '#'))
          (r.dropWhile (fun c => !isNetlocDelim c))).1)).1 = c :: t → c = '/' := by
      intro c t hP
      have hcp : c ∈ (splitFirst (fun c => decide (c = '?'))
          ((splitFirst (fun c => decide (c = '#'))
            (r.dropWhile (fun c => !isNetlocDelim c))).1)).1 := by
        rw [hP]
        simp
      have hR2c : r.dropWhile (fun c => !isNetlocDelim c) = c :: (t ++ (t2 ++ t1)) := by
        rw [← hPrest, hP]
        simp
      have hdl := dropWhile_head_false (fun c => !isNetlocDelim c) r c _ hR2c
      have hdl2 : isNetlocDelim c = true := by simpa using hdl
      have hq := hf2 c hcp
      have hh := hf1 c (hPF1 c hcp)
      simp only [isNetlocDelim, Bool.or_eq_true, decide_eq_true_eq] at hdl2
      rcases hdl2 with (hx | hx) | hx
      · exact hx
      · rw [hx] at hq
        simp at hq
      · rw [hx] at hh
        simp at hh
    refine ⟨s, _, _, _, _, ha, hsOK, ?_, ?_, ?_, ?_, ?_, ?_⟩
    · intro c hc
      constructor
      · have h6 := @List.mem_takeWhile_imp Char (fun c => !isNetlocDelim c) r c hc
        simpa using h6
      · refine hu c (hrl c ?_)
        rw [← List.takeWhile_append_dropWhile (fun c => !isNetlocDelim c) r]
        exact List.mem_append_left _ hc
    · intro c hc
      refine ⟨hf1 c (hPF1 c hc), hf2 c hc, ?_, hu c (hPmem c hc)⟩
      exact decide_eq_false (fun he => h1 (he ▸ hPmem c hc))
    · intro _
      rcases hP : (splitFirst (fun c => decide (c = '?'))
          ((splitFirst (fun c => decide (c = '#'))
            (r.dropWhile (fun c => !isNetlocDelim c))).1)).1 with _ | ⟨c, t⟩
      · exact Or.inl rfl
      · right
        rw [hPhead c t hP]
        rfl
    · intro hN heq
      obtain ⟨pp, hpp⟩ := eq_cons2_of_take2 heq
      have hR2c : r.dropWhile (fun c => !isNetlocDelim c)
          = '/' :: '/' :: (pp ++ (t2 ++ t1)) := by
        rw [← hPrest, hpp]
        simp
      rcases takeWhile_eq_nil_cases _ r hN with hre | ⟨c, r2, hrc, hcd⟩
      · rw [hre] at hR2c
        cases hR2c
      · have hcd2 : isNetlocDelim c = true := by simpa using hcd
        have hR2e : r.dropWhile (fun c => !isNetlocDelim c) = c :: r2 := by
          rw [hrc, List.dropWhile_cons, if_neg]
          simp [hcd2]
        rw [hR2e] at hR2c
        injection hR2c with hc1 _
        have hts : hasTripleSlash rest = true := by
          rw [hr, hrc, hc1]
          simp [hasTripleSlash]
        rw [hts] at hrts
        cases hrts
    · intro hse
      rcases hP : (splitFirst (fun c => decide (c = '?'))
          ((splitFirst (fun c => decide (c = '#'))
            (r.dropWhile (fun c => !isNetlocDelim c))).1)).1 with _ | ⟨c, t⟩
      · rfl
      · have hc1 := hPhead c t hP
        refine detectScheme_noalpha _ ?_
        intro c2 t2x he
        injection he with he1 _
        rw [← he1, hc1]
        decide
    · intro _ c t hP
      rw [hPhead c t hP]
      decide
  · -- no netloc
    have hnr : (if rest.take 2 = ['/', '/'] then
        ((rest.drop 2).takeWhile (fun c => !isNetlocDelim c),
         (rest.drop 2).dropWhile (fun c => !isNetlocDelim c))
      else ([], rest)) = ([], rest) := if_neg hn2
    have ha := urlsplit_assemble l s rest _ _ hdet2 hnr
    obtain ⟨t1, ht1, hf1⟩ := splitFirst_fst (fun c => decide (c = '#')) rest
    obtain ⟨t2, ht2, hf2⟩ := splitFirst_fst (fun c => decide (c = '?'))
      ((splitFirst (fun c => decide (c = '#')) rest).1)
    have hPrest : (splitFirst (fun c => decide (c = '?'))
        ((splitFirst (fun c => decide (c = '#')) rest).1)).1 ++ (t2 ++ t1) = rest := by
      rw [← List.append_assoc, ht2, ht1]
    have hPF1 : ∀ c ∈ (splitFirst (fun c => decide (c = '?'))
        ((splitFirst (fun c => decide (c = '#')) rest).1)).1,
        c ∈ (splitFirst (fun c => decide (c = '#')) rest).1 := by
      intro c hc
      rw [← ht2]
      exact List.mem_append_left _ hc
    have hPmem : ∀ c ∈ (splitFirst (fun c => decide (c = '?'))
        ((splitFirst (fun c => decide (c = '#')) rest).1)).1, c ∈ l := by
      intro c hc
      apply hrm
      rw [← hPrest]
      exact List.mem_append_left _ hc
    refine ⟨s, _, _, _, _, ha, hsOK, ?_, ?_, ?_, ?_, ?_, ?_⟩
    · intro c hc
      cases hc
    · intro c hc
      refine ⟨hf1 c (hPF1 c hc), hf2 c hc, ?_, hu c (hPmem c hc)⟩
      exact decide_eq_false (fun he => h1 (he ▸ hPmem c hc))
    · intro hne
      exact absurd rfl hne
    · intro _ heq
      exact hn2 (take_eq_of_append₂ hPrest heq)
    · intro hse
      exact detectScheme_of_prefix _ (t2 ++ t1) rest hPrest (hdrest hse)
    · intro hse c t hP
      refine hrhead hse c (t ++ (t2 ++ t1)) ?_
      rw [← hPrest, hP]
      simp

/-- The scheme-and-colon head that urlunsplit prepends. -/
def optScheme (s : List Char) : List Char := if s = [] then [] else s ++ [':']

theorem alpha_not_c0 {c : Char} (h : isAsciiAlpha c = true) : isC0OrSpace c = false := by
  simp only [isAsciiAlpha, Bool.or_eq_true, Bool.and_eq_true, decide_eq_true_eq] at h
  exact decide_eq_false (by omega)

theorem schemeOK_ne_nil {s : List Char} (h : SchemeOK s) : s ≠ [] := by
  obtain ⟨⟨c, cs, rfl, _⟩, _, _⟩ := h
  simp

theorem rstrip_fix_of_last {w a : List Char} {c : Char} (hw : w = a ++ [c])
    (hc : decide (c = '/') = false) : rstripSlash w = w := by
  rw [hw]
  exact rstripSlash_append_single a hc

theorem urlparse_of_urlsplit (l s n p q f : List Char)
    (h : urlsplit l = ⟨s, n, p, q, f⟩)
    (hp : ∀ c ∈ p, decide (c = ';') = false) :
    urlparse l = ⟨s, n, p, [], q, f⟩ := by
  rw [urlparse, h]
  dsimp only
  have hnc : ¬(s ∈ uses_params ∧ p.contains ';' = true) := by
    rintro ⟨_, hcon⟩
    have hmem : (';' : Char) ∈ p := by simpa using hcon
    have h2 := hp _ hmem
    simp at h2
  rw [if_neg hnc]

theorem normList_eq (l s n p q f : List Char)
    (h : urlparse l = ⟨s, n, p, [], q, f⟩) :
    normList l = rstripSlash (urlunsplit s n p [] []) := by
  rw [normList, h]
  show rstripSlash (urlunparse ⟨s, n, p, [], [], []⟩) = rstripSlash (urlunsplit s n p [] [])
  simp only [urlunparse]
  rw [if_neg (by simp)]

theorem urlunsplit_nf (s n p : List Char) :
    urlunsplit s n p [] [] =
      optScheme s ++
      (if n ≠ [] ∨ (s ≠ [] ∧ s ∈ uses_netloc ∧ p.take 2 ≠ ['/', '/']) then
        '/' :: '/' :: (n ++ (if p ≠ [] ∧ p.take 1 ≠ ['/'] then '/' :: p else p))
      else p) := by
  rw [urlunsplit]
  rw [if_neg (by simp), if_neg (by simp)]
  by_cases hcond : n ≠ [] ∨ (s ≠ [] ∧ s ∈ uses_netloc ∧ p.take 2 ≠ ['/', '/'])
  · rw [if_pos hcond]
    by_cases hsne : s = []
    · rw [if_neg (by simp [hsne]), optScheme, if_pos hsne]
      rfl
    · rw [if_pos hsne, optScheme, if_neg hsne]
      simp
  · rw [if_neg hcond]
    by_cases hsne : s = []
    · rw [if_neg (by simp [hsne]), optScheme, if_pos hsne]
      rfl
    · rw [if_pos hsne, optScheme, if_neg hsne]
      simp

theorem exists_last_of_ne_nil {n : List Char} (h : n ≠ []) :
    ∃ a c, n = a ++ [c] ∧ c ∈ n := by
  rcases hr : n.reverse with _ | ⟨c, t⟩
  · have h2 := congrArg List.reverse hr
    rw [List.reverse_reverse] at h2
    simp at h2
    exact absurd h2 h
  · have h2 := congrArg List.reverse hr
    rw [List.reverse_reverse, List.reverse_cons] at h2
    exact ⟨t.reverse, c, h2, by rw [h2]; simp⟩

theorem detectScheme_build (s rest : List Char) (h : SchemeOK s) :
    detectScheme (s ++ ':' :: rest) = (s, rest) := by
  obtain ⟨⟨c, cs, hs0, hc⟩, hall, hmap⟩ := h
  have hsp := splitFirst_marked (fun x => decide (x = ':')) s ':' rest
    (fun x hx => (schemeChar_not_special (hall x hx)).1) (by simp)
  have hcond : (isAsciiAlpha c && ((c :: cs).all isSchemeChar)) = true := by
    rw [Bool.and_eq_true]
    refine ⟨hc, ?_⟩
    rw [List.all_eq_true]
    intro x hx
    have hx2 : x ∈ s := by rw [hs0]; exact hx
    simp [hall x hx2]
  simp only [detectScheme]
  rw [hsp, hs0]
  dsimp only
  rw [if_pos hcond, ← hs0, hmap]

theorem normList_fix_netloc (s n p : List Char)
    (hs : s = [] ∨ SchemeOK s)
    (hn : ∀ c ∈ n, isNetlocDelim c = false ∧ isUnsafeUrlChar c = false)
    (hnn : n ≠ [])
    (hp : ∀ c ∈ p, decide (c = '#') = false ∧ decide (c = '?') = false
        ∧ decide (c = ';') = false ∧ isUnsafeUrlChar c = false)
    (hp1 : p = [] ∨ p.take 1 = ['/'])
    (hps : rstripSlash p = p) :
    normList (optScheme s ++ '/' :: '/' :: (n ++ p))
      = optScheme s ++ '/' :: '/' :: (n ++ p) := by
  have hsnil : s = [] → optScheme s = [] := fun h => by rw [optScheme, if_pos h]
  have hsco : s ≠ [] → optScheme s = s ++ [':'] := fun h => by rw [optScheme, if_neg h]
  have hhead : ∀ c t, optScheme s ++ '/' :: '/' :: (n ++ p) = c :: t
      → isC0OrSpace c = false := by
    rcases hs with hs0 | ⟨⟨c0, cs, hs0, hal⟩, _, _⟩
    · intro c t h
      rw [hsnil hs0, List.nil_append] at h
      injection h with h1 _
      rw [← h1]
      decide
    · intro c t h
      rw [hsco (by rw [hs0]; simp), hs0, List.cons_append, List.cons_append] at h
      injection h with h1 _
      rw [← h1]
      exact alpha_not_c0 hal
  have hok : ∀ c ∈ optScheme s ++ '/' :: '/' :: (n ++ p),
      isUnsafeUrlChar c = false := by
    intro c hc
    rw [List.mem_append] at hc
    rcases hc with hc | hc
    · rcases hs with hs0 | hsch
      · rw [hsnil hs0] at hc
        cases hc
      · rw [hsco (schemeOK_ne_nil hsch), List.mem_append] at hc
        rcases hc with hc | hc
        · exact (schemeChar_not_special (hsch.2.1 c hc)).2.2.2.2.2.2.1
        · rw [List.mem_singleton] at hc
          rw [hc]
          decide
    · rw [List.mem_cons] at hc
      rcases hc with rfl | hc
      · decide
      · rw [List.mem_cons] at hc
        rcases hc with rfl | hc
        · decide
        · rw [List.mem_append] at hc
          rcases hc with hc | hc
          · exact (hn c hc).2
          · exact (hp c hc).2.2.2
  have hclean : cleanUrl (optScheme s ++ '/' :: '/' :: (n ++ p))
      = optScheme s ++ '/' :: '/' :: (n ++ p) := cleanUrl_eq_self _ hhead hok
  have hdet : detectScheme (optScheme s ++ '/' :: '/' :: (n ++ p))
      = (s, '/' :: '/' :: (n ++ p)) := by
    rcases hs with hs0 | hsch
    · rw [hsnil hs0, List.nil_append, hs0]
      refine detectScheme_noalpha _ ?_
      intro c t h
      injection h with h1 _
      rw [← h1]
      decide
    · rw [hsco (schemeOK_ne_nil hsch)]
      have h2 : (s ++ [':']) ++ '/' :: '/' :: (n ++ p)
          = s ++ ':' :: ('/' :: '/' :: (n ++ p)) := by simp
      rw [h2]
      exact detectScheme_build s _ hsch
  have hpb : ∀ m t, p = m :: t → (fun c => !isNetlocDelim c) m = false := by
    intro m t hmt
    rcases hp1 with hp0 | hp0
    · rw [hp0] at hmt
      cases hmt
    · rw [hmt] at hp0
      have h2 : [m] = ['/'] := hp0
      injection h2 with h3 _
      rw [h3]
      decide
  have hna : ∀ c ∈ n, (fun c => !isNetlocDelim c) c = true := by
    intro c hc
    simp [(hn c hc).1]
  have htd := takeDrop_append (fun c => !isNetlocDelim c) n p hna hpb
  have hnr : (if ('/' :: '/' :: (n ++ p)).take 2 = ['/', '/'] then
      ((('/' :: '/' :: (n ++ p)).drop 2).takeWhile (fun c => !isNetlocDelim c),
       (('/' :: '/' :: (n ++ p)).drop 2).dropWhile (fun c => !isNetlocDelim c))
    else ([], '/' :: '/' :: (n ++ p))) = (n, p) := by
    rw [if_pos (show List.take 2 ('/' :: '/' :: (n ++ p)) = ['/', '/'] from rfl)]
    show ((n ++ p).takeWhile _, (n ++ p).dropWhile _) = (n, p)
    rw [htd.1, htd.2]
  have hfr : splitFirst (fun c => decide (c = '#')) p = (p, none) :=
    splitFirst_none _ _ (fun c hc => (hp c hc).1)
  have hqr : splitFirst (fun c => decide (c = '?')) p = (p, none) :=
    splitFirst_none _ _ (fun c hc => (hp c hc).2.1)
  have hsplit := urlsplit_assemble (optScheme s ++ '/' :: '/' :: (n ++ p)) s
    ('/' :: '/' :: (n ++ p)) n p (by rw [hclean]; exact hdet) hnr
  rw [hfr] at hsplit
  dsimp only at hsplit
  rw [hqr] at hsplit
  dsimp only at hsplit
  have hparse := urlparse_of_urlsplit _ s n p [] [] hsplit (fun c hc => (hp c hc).2.2.1)
  have hnl := normList_eq _ s n p [] [] hparse
  have hins : (if p ≠ [] ∧ p.take 1 ≠ ['/'] then '/' :: p else p) = p := by
    rcases hp1 with hp0 | hp0
    · rw [if_neg]
      rintro ⟨hne, _⟩
      exact hne hp0
    · rw [if_neg]
      rintro ⟨_, hne⟩
      exact hne hp0
  have hrsw : rstripSlash (optScheme s ++ '/' :: '/' :: (n ++ p))
      = optScheme s ++ '/' :: '/' :: (n ++ p) := by
    rcases rstripSlash_last p with hpe | ⟨a, c, hac, hcs⟩
    · rw [hps] at hpe
      subst hpe
      obtain ⟨a, c, hnc, hcm⟩ := exists_last_of_ne_nil hnn
      refine @rstrip_fix_of_last _ (optScheme s ++ '/' :: '/' :: a) c ?_ ?_
      · rw [hnc]
        simp
      · have h6 := (hn c hcm).1
        simp only [isNetlocDelim, Bool.or_eq_false_iff] at h6
        exact h6.1.1
    · rw [hps] at hac
      refine @rstrip_fix_of_last _ (optScheme s ++ '/' :: '/' :: (n ++ a)) c ?_ hcs
      rw [hac]
      simp
  rw [hnl, urlunsplit_nf, if_pos (Or.inl hnn), hins, hrsw]

theorem normList_fix_scheme_colon (s : List Char) (hsch : SchemeOK s)
    (hsn : s ∈ uses_netloc) : normList (s ++ [':']) = s ++ [':'] := by
  have hhead : ∀ c t, s ++ [':'] = c :: t → isC0OrSpace c = false := by
    obtain ⟨⟨c0, cs, hs0, hal⟩, _, _⟩ := hsch
    intro c t h
    rw [hs0, List.cons_append] at h
    injection h with h1 _
    rw [← h1]
    exact alpha_not_c0 hal
  have hok : ∀ c ∈ s ++ [':'], isUnsafeUrlChar c = false := by
    intro c hc
    rw [List.mem_append] at hc
    rcases hc with hc | hc
    · exact (schemeChar_not_special (hsch.2.1 c hc)).2.2.2.2.2.2.1
    · rw [List.mem_singleton] at hc
      rw [hc]
      decide
  have hclean := cleanUrl_eq_self _ hhead hok
  have hdet : detectScheme (s ++ [':']) = (s, []) := detectScheme_build s [] hsch
  have hnr : (if ([] : List Char).take 2 = ['/', '/'] then
      ((([] : List Char).drop 2).takeWhile (fun c => !isNetlocDelim c),
       (([] : List Char).drop 2).dropWhile (fun c => !isNetlocDelim c))
    else ([], ([] : List Char))) = ([], ([] : List Char)) := by
    rw [if_neg (by simp)]
  have hsplit := urlsplit_assemble (s ++ [':']) s [] [] []
    (by rw [hclean]; exact hdet) hnr
  have hsplit2 : urlsplit (s ++ [':']) = ⟨s, [], [], [], []⟩ := by
    rw [hsplit]
    rfl
  have hparse := urlparse_of_urlsplit _ s [] [] [] [] hsplit2
    (fun c hc => absurd hc (List.not_mem_nil c))
  have hnl := normList_eq _ s [] [] [] [] hparse
  rw [hnl, urlunsplit_nf, if_pos (Or.inr ⟨schemeOK_ne_nil hsch, hsn, by simp⟩)]
  rw [if_neg (by simp)]
  have hopt : optScheme s = s ++ [':'] := by
    rw [optScheme, if_neg (schemeOK_ne_nil hsch)]
  rw [hopt]
  have hw : (s ++ [':']) ++ '/' :: '/' :: (([] : List Char) ++ [])
      = (s ++ [':']) ++ ['/', '/'] := by simp
  rw [hw, rstripSlash_append_nil _ _ (by decide)]
  exact rstripSlash_append_single s (by decide)

theorem normList_fix_scheme_slash (s q : List Char)
    (hsch : SchemeOK s) (hsn : s ∈ uses_netloc)
    (hq : ∀ c ∈ q, decide (c = '#') = false ∧ decide (c = '?') = false
        ∧ decide (c = ';') = false ∧ isUnsafeUrlChar c = false)
    (hq1 : ∃ t, q = '/' :: t)
    (hq2 : q.take 2 ≠ ['/', '/'])
    (hqs : rstripSlash q = q) :
    normList (s ++ ':' :: '/' :: '/' :: q) = s ++ ':' :: '/' :: '/' :: q := by
  obtain ⟨t0, ht0⟩ := hq1
  have hhead : ∀ c t, s ++ ':' :: '/' :: '/' :: q = c :: t → isC0OrSpace c = false := by
    obtain ⟨⟨c0, cs, hs0, hal⟩, _, _⟩ := hsch
    intro c t h
    rw [hs0, List.cons_append] at h
    injection h with h1 _
    rw [← h1]
    exact alpha_not_c0 hal
  have hok : ∀ c ∈ s ++ ':' :: '/' :: '/' :: q, isUnsafeUrlChar c = false := by
    intro c hc
    rw [List.mem_append] at hc
    rcases hc with hc | hc
    · exact (schemeChar_not_special (hsch.2.1 c hc)).2.2.2.2.2.2.1
    · rw [List.mem_cons] at hc
      rcases hc with rfl | hc
      · decide
      · rw [List.mem_cons] at hc
        rcases hc with rfl | hc
        · decide
        · rw [List.mem_cons] at hc
          rcases hc with rfl | hc
          · decide
          · exact (hq c hc).2.2.2
  have hclean := cleanUrl_eq_self _ hhead hok
  have hdet : detectScheme (s ++ ':' :: '/' :: '/' :: q) = (s, '/' :: '/' :: q) :=
    detectScheme_build s _ hsch
  have hnr : (if ('/' :: '/' :: q).take 2 = ['/', '/'] then
      ((('/' :: '/' :: q).drop 2).takeWhile (fun c => !isNetlocDelim c),
       (('/' :: '/' :: q).drop 2).dropWhile (fun c => !isNetlocDelim c))
    else ([], '/' :: '/' :: q)) = ([], q) := by
    rw [if_pos (show List.take 2 ('/' :: '/' :: q) = ['/', '/'] from rfl)]
    show (q.takeWhile _, q.dropWhile _) = ([], q)
    rw [ht0, List.takeWhile_cons, List.dropWhile_cons]
    rw [if_neg (by decide), if_neg (by decide)]
  have hfr : splitFirst (fun c => decide (c = '#')) q = (q, none) :=
    splitFirst_none _ _ (fun c hc => (hq c hc).1)
  have hqr2 : splitFirst (fun c => decide (c = '?')) q = (q, none) :=
    splitFirst_none _ _ (fun c hc => (hq c hc).2.1)
  have hsplit := urlsplit_assemble (s ++ ':' :: '/' :: '/' :: q) s ('/' :: '/' :: q) [] q
    (by rw [hclean]; exact hdet) hnr
  rw [hfr] at hsplit
  dsimp only at hsplit
  rw [hqr2] at hsplit
  dsimp only at hsplit
  have hparse := urlparse_of_urlsplit _ s [] q [] [] hsplit (fun c hc => (hq c hc).2.2.1)
  have hnl := normList_eq _ s [] q [] [] hparse
  rw [hnl, urlunsplit_nf, if_pos (Or.inr ⟨schemeOK_ne_nil hsch, hsn, hq2⟩)]
  rw [if_neg (by rintro ⟨_, hne⟩; exact hne (by rw [ht0]; rfl))]
  have hopt : optScheme s = s ++ [':'] := by
    rw [optScheme, if_neg (schemeOK_ne_nil hsch)]
  rw [hopt]
  rcases rstripSlash_last q with hqe | ⟨a, c, hac, hcs⟩
  · rw [hqs] at hqe
    rw [hqe] at ht0
    cases ht0
  · rw [hqs] at hac
    have hw : (s ++ [':']) ++ '/' :: '/' :: (([] : List Char) ++ q)
        = ((s ++ [':']) ++ '/' :: '/' :: a) ++ [c] := by
      rw [hac]
      simp
    rw [hw, rstripSlash_append_single _ hcs, hac]
    simp

theorem normList_fix_plain (s p : List Char)
    (hs : s = [] ∨ (SchemeOK s ∧ s ∉ uses_netloc))
    (hp : ∀ c ∈ p, decide (c = '#') = false ∧ decide (c = '?') = false
        ∧ decide (c = ';') = false ∧ isUnsafeUrlChar c = false)
    (hp2 : p.take 2 ≠ ['/', '/'])
    (hds : s = [] → detectScheme p = ([], p))
    (hph : s = [] → ∀ c t, p = c :: t → isC0OrSpace c = false)
    (hps : rstripSlash p = p) :
    normList (optScheme s ++ p) = optScheme s ++ p := by
  have hsnil : s = [] → optScheme s = [] := fun h => by rw [optScheme, if_pos h]
  have hsco : s ≠ [] → optScheme s = s ++ [':'] := fun h => by rw [optScheme, if_neg h]
  have hhead : ∀ c t, optScheme s ++ p = c :: t → isC0OrSpace c = false := by
    rcases hs with hs0 | ⟨hsch, _⟩
    · intro c t h
      rw [hsnil hs0, List.nil_append] at h
      exact hph hs0 c t h
    · obtain ⟨⟨c0, cs, hs0, hal⟩, _, _⟩ := hsch
      intro c t h
      rw [hsco (by rw [hs0]; simp), hs0, List.cons_append, List.cons_append] at h
      injection h with h1 _
      rw [← h1]
      exact alpha_not_c0 hal
  have hok : ∀ c ∈ optScheme s ++ p, isUnsafeUrlChar c = false := by
    intro c hc
    rw [List.mem_append] at hc
    rcases hc with hc | hc
    · rcases hs with hs0 | ⟨hsch, _⟩
      · rw [hsnil hs0] at hc
        cases hc
      · rw [hsco (schemeOK_ne_nil hsch), List.mem_append] at hc
        rcases hc with hc | hc
        · exact (schemeChar_not_special (hsch.2.1 c hc)).2.2.2.2.2.2.1
        · rw [List.mem_singleton] at hc
          rw [hc]
          decide
    · exact (hp c hc).2.2.2
  have hclean := cleanUrl_eq_self _ hhead hok
  have hdet : detectScheme (optScheme s ++ p) = (s, p) := by
    rcases hs with hs0 | ⟨hsch, _⟩
    · rw [hsnil hs0, List.nil_append, hs0]
      exact hds hs0
    · rw [hsco (schemeOK_ne_nil hsch)]
      have h2 : (s ++ [':']) ++ p = s ++ ':' :: p := by simp
      rw [h2]
      exact detectScheme_build s _ hsch
  have hnr : (if p.take 2 = ['/', '/'] then
      ((p.drop 2).takeWhile (fun c => !isNetlocDelim c),
       (p.drop 2).dropWhile (fun c => !isNetlocDelim c))
    else ([], p)) = ([], p) := if_neg hp2
  have hfr : splitFirst (fun c => decide (c = '#')) p = (p, none) :=
    splitFirst_none _ _ (fun c hc => (hp c hc).1)
  have hqr : splitFirst (fun c => decide (c = '?')) p = (p, none) :=
    splitFirst_none _ _ (fun c hc => (hp c hc).2.1)
  have hsplit := urlsplit_assemble (optScheme s ++ p) s p [] p
    (by rw [hclean]; exact hdet) hnr
  rw [hfr] at hsplit
  dsimp only at hsplit
  rw [hqr] at hsplit
  dsimp only at hsplit
  have hparse := urlparse_of_urlsplit _ s [] p [] [] hsplit (fun c hc => (hp c hc).2.2.1)
  have hnl := normList_eq _ s [] p [] [] hparse
  have hcond : ¬(([] : List Char) ≠ []
      ∨ (s ≠ [] ∧ s ∈ uses_netloc ∧ p.take 2 ≠ ['/', '/'])) := by
    rintro (h | ⟨hne, hin, _⟩)
    · exact h rfl
    · rcases hs with hs0 | ⟨_, hnin⟩
      · exact hne hs0
      · exact hnin hin
  rw [hnl, urlunsplit_nf, if_neg hcond]
  rcases rstripSlash_last p with hpe | ⟨a, c, hac, hcs⟩
  · rw [hps] at hpe
    subst hpe
    rcases hs with hs0 | ⟨hsch, _⟩
    · rw [hsnil hs0]
      rfl
    · rw [hsco (schemeOK_ne_nil hsch)]
      have hw : (s ++ [':']) ++ ([] : List Char) = s ++ [':'] := by simp
      rw [hw]
      exact rstripSlash_append_single s (by decide)
  · rw [hps] at hac
    refine @rstrip_fix_of_last _ (optScheme s ++ a) c ?_ hcs
    rw [hac]
    simp

theorem dropWhile_eq_nil_of_all (p : Char → Bool) (l : List Char)
    (h : ∀ c ∈ l, p c = true) : l.dropWhile p = [] := by
  induction l with
  | nil => rfl
  | cons c cs ih =>
    rw [List.dropWhile_cons, if_pos (h c (by simp))]
    exact ih (fun x hx => h x (by simp [hx]))

theorem rstripSlash_all_slash (b : List Char) (h : ∀ c ∈ b, c = '/') :
    rstripSlash b = [] := by
  rw [rstripSlash, dropWhile_eq_nil_of_all]
  · rfl
  · intro c hc
    rw [List.mem_reverse] at hc
    simp [h c hc]

theorem rstrip_nil_all_slash {p : List Char} (h : rstripSlash p = []) :
    ∀ c ∈ p, c = '/' := by
  obtain ⟨ts, hts, hall⟩ := rstripSlash_decomp p
  rw [h, List.nil_append] at hts
  intro c hc
  refine hall c ?_
  rw [hts]
  exact hc

theorem rstrip_mem {p : List Char} : ∀ c ∈ rstripSlash p, c ∈ p := by
  obtain ⟨ts, hts, _⟩ := rstripSlash_decomp p
  intro c hc
  rw [← hts]
  exact List.mem_append_left _ hc

theorem rstrip_head_slash {p : List Char} (h : p = [] ∨ p.take 1 = ['/'])
    (hne : rstripSlash p ≠ []) : ∃ t, rstripSlash p = '/' :: t := by
  rcases h with rfl | h
  · exact absurd rfl hne
  · obtain ⟨ts, hts, _⟩ := rstripSlash_decomp p
    rcases hq : rstripSlash p with _ | ⟨c, t⟩
    · exact absurd hq hne
    · rw [hq] at hts
      have hp : p = c :: (t ++ ts) := by
        rw [← hts]
        simp
      rw [hp] at h
      have h2 : [c] = ['/'] := h
      injection h2 with h3 _
      exact ⟨t, by rw [h3]⟩

theorem rstrip_take2_ne {p : List Char} (h : p.take 2 ≠ ['/', '/']) :
    (rstripSlash p).take 2 ≠ ['/', '/'] := by
  obtain ⟨ts, hts, _⟩ := rstripSlash_decomp p
  intro heq
  exact h (take_eq_of_append₂ hts heq)

theorem rstrip_head_cases {p : List Char} {c : Char} {t : List Char}
    (h : rstripSlash p = c :: t) : ∃ t2, p = c :: t2 := by
  obtain ⟨ts, hts, _⟩ := rstripSlash_decomp p
  rw [h] at hts
  refine ⟨t ++ ts, ?_⟩
  rw [← hts]
  simp

/-- Idempotence of the character-level normalization under the scoping
hypotheses: no semicolon (no params splitting), no "///" substring, and
none of the unsafe bytes tab, CR, LF. -/
theorem normList_idem (l : List Char)
    (h1 : (';' : Char) ∉ l) (h2 : hasTripleSlash l = false)
    (h3 : ('\t' : Char) ∉ l) (h4 : ('\r' : Char) ∉ l) (h5 : ('\n' : Char) ∉ l) :
    normList (normList l) = normList l := by
  obtain ⟨s, n, p, q, f, hus, hsOK, hn, hp, hp1, hp2, hds, hph⟩ :=
    urlsplit_decomp l h1 h2 h3 h4 h5
  have hparse := urlparse_of_urlsplit l s n p q f hus (fun c hc => (hp c hc).2.2.1)
  have hnl := normList_eq l s n p q f hparse
  obtain ⟨ts, hts, htsall⟩ := rstripSlash_decomp p
  have hp' : ∀ c ∈ rstripSlash p, decide (c = '#') = false ∧ decide (c = '?') = false
      ∧ decide (c = ';') = false ∧ isUnsafeUrlChar c = false :=
    fun c hc => hp c (rstrip_mem c hc)
  by_cases hnn : n = []
  · subst hnn
    by_cases hss : s = []
    · subst hss
      rw [urlunsplit_nf, if_neg (by simp)] at hnl
      have hopt : optScheme ([] : List Char) = [] := by rw [optScheme, if_pos rfl]
      rw [hopt, List.nil_append] at hnl
      rw [hnl]
      have hph' : ∀ c t, rstripSlash p = c :: t → isC0OrSpace c = false := by
        intro c t hc
        obtain ⟨t2, ht2⟩ := rstrip_head_cases hc
        exact hph rfl c t2 ht2
      have hds' : detectScheme (rstripSlash p) = ([], rstripSlash p) :=
        detectScheme_of_prefix _ ts p hts (hds rfl)
      have hfix := normList_fix_plain [] (rstripSlash p) (Or.inl rfl) hp'
        (rstrip_take2_ne (hp2 rfl)) (fun _ => hds') (fun _ => hph') (rstripSlash_idem p)
      rw [hopt, List.nil_append] at hfix
      exact hfix
    · have hsch : SchemeOK s := by
        rcases hsOK with hs0 | hs0
        · exact absurd hs0 hss
        · exact hs0
      by_cases hun : s ∈ uses_netloc
      · have hcond : ([] : List Char) ≠ []
            ∨ (s ≠ [] ∧ s ∈ uses_netloc ∧ p.take 2 ≠ ['/', '/']) :=
          Or.inr ⟨hss, hun, hp2 rfl⟩
        rw [urlunsplit_nf, if_pos hcond] at hnl
        set pp := if p ≠ [] ∧ p.take 1 ≠ ['/'] then '/' :: p else p with hpp
        have hppmem : ∀ c ∈ pp, c = '/' ∨ c ∈ p := by
          rw [hpp]
          split
          · intro c hc
            rcases List.mem_cons.mp hc with rfl | hc
            · exact Or.inl rfl
            · exact Or.inr hc
          · exact fun c hc => Or.inr hc
        have hpp1 : pp = [] ∨ pp.take 1 = ['/'] := by
          rw [hpp]
          split
          · right
            rfl
          · rename_i hcc
            push_neg at hcc
            by_cases hpe : p = []
            · exact Or.inl hpe
            · exact Or.inr (hcc hpe)
        have hpp2 : pp.take 2 ≠ ['/', '/'] := by
          rw [hpp]
          split
          · rename_i hcc
            intro heq
            have h6 : '/' :: p.take 1 = ['/', '/'] := heq
            injection h6 with _ h7
            exact hcc.2 h7
          · exact hp2 rfl
        by_cases hq0 : rstripSlash pp = []
        · have hall : ∀ c ∈ '/' :: '/' :: pp, c = '/' := by
            intro c hc
            rcases List.mem_cons.mp hc with rfl | hc
            · rfl
            · rcases List.mem_cons.mp hc with rfl | hc
              · rfl
              · exact rstrip_nil_all_slash hq0 c hc
          have hw : rstripSlash (optScheme s ++ '/' :: '/' :: (([] : List Char) ++ pp))
              = s ++ [':'] := by
            have hgr : optScheme s ++ '/' :: '/' :: (([] : List Char) ++ pp)
                = (s ++ [':']) ++ ('/' :: '/' :: pp) := by
              rw [optScheme, if_neg hss]
              simp
            rw [hgr, rstripSlash_append_nil _ _ (rstripSlash_all_slash _ hall)]
            exact rstripSlash_append_single s (by decide)
          rw [hw] at hnl
          rw [hnl]
          exact normList_fix_scheme_colon s hsch hun
        · have hw : rstripSlash (optScheme s ++ '/' :: '/' :: (([] : List Char) ++ pp))
              = s ++ ':' :: '/' :: '/' :: rstripSlash pp := by
            have hgr : optScheme s ++ '/' :: '/' :: (([] : List Char) ++ pp)
                = (s ++ [':', '/', '/']) ++ pp := by
              rw [optScheme, if_neg hss]
              simp
            rw [hgr, rstripSlash_append _ _ hq0]
            simp
          rw [hw] at hnl
          rw [hnl]
          refine normList_fix_scheme_slash s (rstripSlash pp) hsch hun ?_ ?_ ?_
            (rstripSlash_idem pp)
          · intro c hc
            rcases hppmem c (rstrip_mem c hc) with rfl | hc2
            · exact ⟨by decide, by decide, by decide, by decide⟩
            · exact hp c hc2
          · exact rstrip_head_slash hpp1 hq0
          · exact rstrip_take2_ne hpp2
      · have hcond2 : ¬(([] : List Char) ≠ []
            ∨ (s ≠ [] ∧ s ∈ uses_netloc ∧ p.take 2 ≠ ['/', '/'])) := by
          rintro (h | ⟨_, hin, _⟩)
          · exact h rfl
          · exact hun hin
        rw [urlunsplit_nf, if_neg hcond2] at hnl
        by_cases hq0 : rstripSlash p = []
        · have hw : rstripSlash (optScheme s ++ p) = s ++ [':'] := by
            rw [rstripSlash_append_nil _ _ hq0, optScheme, if_neg hss]
            exact rstripSlash_append_single s (by decide)
          rw [hw] at hnl
          rw [hnl]
          have hfix := normList_fix_plain s [] (Or.inr ⟨hsch, hun⟩)
            (fun c hc => absurd hc (List.not_mem_nil c)) (by simp)
            (fun hs0 => absurd hs0 hss) (fun hs0 => absurd hs0 hss) rfl
          rw [optScheme, if_neg hss, List.append_nil] at hfix
          exact hfix
        · have hw : rstripSlash (optScheme s ++ p) = optScheme s ++ rstripSlash p :=
            rstripSlash_append _ _ hq0
          rw [hw] at hnl
          rw [hnl]
          exact normList_fix_plain s (rstripSlash p) (Or.inr ⟨hsch, hun⟩) hp'
            (rstrip_take2_ne (hp2 rfl)) (fun hs0 => absurd hs0 hss)
            (fun hs0 => absurd hs0 hss) (rstripSlash_idem p)
  · have hins : (if p ≠ [] ∧ p.take 1 ≠ ['/'] then '/' :: p else p) = p := by
      rcases hp1 hnn with hp0 | hp0
      · rw [if_neg]
        rintro ⟨hne, _⟩
        exact hne hp0
      · rw [if_neg]
        rintro ⟨_, hne⟩
        exact hne hp0
    rw [urlunsplit_nf, if_pos (Or.inl hnn), hins] at hnl
    by_cases hq0 : rstripSlash p = []
    · have hw : rstripSlash (optScheme s ++ '/' :: '/' :: (n ++ p))
          = optScheme s ++ '/' :: '/' :: n := by
        have hgr : optScheme s ++ '/' :: '/' :: (n ++ p)
            = (optScheme s ++ '/' :: '/' :: n) ++ p := by simp
        rw [hgr, rstripSlash_append_nil _ _ hq0]
        obtain ⟨a, c, hnc, hcm⟩ := exists_last_of_ne_nil hnn
        refine @rstrip_fix_of_last _ (optScheme s ++ '/' :: '/' :: a) c ?_ ?_
        · rw [hnc]
          simp
        · have h6 := (hn c hcm).1
          simp only [isNetlocDelim, Bool.or_eq_false_iff] at h6
          exact h6.1.1
      rw [hw] at hnl
      rw [hnl]
      have hfix := normList_fix_netloc s n [] hsOK hn hnn
        (fun c hc => absurd hc (List.not_mem_nil c)) (Or.inl rfl) rfl
      rw [List.append_nil] at hfix
      exact hfix
    · have hw : rstripSlash (optScheme s ++ '/' :: '/' :: (n ++ p))
          = optScheme s ++ '/' :: '/' :: (n ++ rstripSlash p) := by
        have hgr : optScheme s ++ '/' :: '/' :: (n ++ p)
            = (optScheme s ++ '/' :: '/' :: n) ++ p := by simp
        rw [hgr, rstripSlash_append _ _ hq0]
        simp
      rw [hw] at hnl
      rw [hnl]
      refine normList_fix_netloc s n (rstripSlash p) hsOK hn hnn hp' ?_
        (rstripSlash_idem p)
      have hp0 : p.take 1 = ['/'] := by
        rcases hp1 hnn with hp0 | hp0
        · rw [hp0] at hq0
          exact absurd rfl hq0
        · exact hp0
      obtain ⟨t, ht⟩ := rstrip_head_slash (Or.inr hp0) hq0
      right
      rw [ht]
      rfl

/-! ## Claim C10: idempotence of normalize_url -/

/-- Claim C10 counterexample: normalize_url is NOT idempotent on every
string.  One application maps "/;/" to "/;" (the trailing slash is
stripped); a second application then splits "/;" into path "/" with empty
params, drops the empty params on rebuild and strips the remaining slash,
yielding "" ≠ "/;". -/
theorem c10_counterexample :
    normalize_url "/;/" = "/;"
    ∧ normalize_url (normalize_url "/;/") = ""
    ∧ normalize_url (normalize_url "/;/") ≠ normalize_url "/;/" :=
  ⟨by decide, by decide, by decide⟩

/-- Claim C10 (amended): normalize_url IS idempotent on every string that
contains no semicolon (so urlparse's params splitting never fires), no
"///" substring (so an empty netloc cannot absorb a path slash), and none
of the bytes tab, CR, LF that urlsplit deletes outright. -/
theorem c10_normalize_url_idem_amended (u : String)
    (h1 : (';' : Char) ∉ u.data) (h2 : hasTripleSlash u.data = false)
    (h3 : ('\t' : Char) ∉ u.data) (h4 : ('\r' : Char) ∉ u.data)
    (h5 : ('\n' : Char) ∉ u.data) :
    normalize_url (normalize_url u) = normalize_url u := by
  show String.mk (normList (String.mk (normList u.data)).data)
    = String.mk (normList u.data)
  have hd : (String.mk (normList u.data)).data = normList u.data := rfl
  rw [hd, normList_idem u.data h1 h2 h3 h4 h5]

/-- Claim C10 amended-theorem witness at the concrete URL
"https://x.com/p/5?q=1#f". -/
theorem c10_normalize_url_idem_amended_witness :
    ((';' : Char) ∉ "https://x.com/p/5?q=1#f".data
      ∧ hasTripleSlash "https://x.com/p/5?q=1#f".data = false
      ∧ ('\t' : Char) ∉ "https://x.com/p/5?q=1#f".data)
    ∧ normalize_url (normalize_url "https://x.com/p/5?q=1#f")
      = normalize_url "https://x.com/p/5?q=1#f" :=
  ⟨⟨by decide, by decide, by decide⟩,
    c10_normalize_url_idem_amended "https://x.com/p/5?q=1#f" (by decide) (by decide)
      (by decide) (by decide) (by decide)⟩
